import Mathlib

/-!
Verification of the operator-induction pipeline of the predicators repository:
trajectory segmentation, effect extraction, joint unification of effects and
control-routine (option) arguments, incremental clustering into STRIPS-style
operators, sampler fallback behaviour, and the teacher-dataset builder.

The core learning code (segment_trajectory, unify_effects_and_options,
learn_strips_operators, sampler learning) is exercised by the repository's
tests but its implementation module is not part of the provided sources, so
those functions are modelled from the specification; create_teacher_dataset
is translated from src/src/datasets/teacher.py.
-/

namespace Predicators

/-- An object: an opaque identity with a fixed type (spec section 3). -/
structure PObj where
  name : String
  ty : String
deriving DecidableEq

/-- A typed variable standing for an object, scoped to one operator. -/
structure PVar where
  id : Nat
  ty : String
deriving DecidableEq

/-- A ground atom: a predicate applied to concrete objects. -/
structure GAtom where
  pred : String
  args : List PObj
deriving DecidableEq

/-- A lifted atom: a predicate applied to typed variables. -/
structure LAtom where
  pred : String
  args : List PVar
deriving DecidableEq

/-- A binding from ground objects to lifted variables, as an association list. -/
abbrev Sub := List (PObj × PVar)

/-- Boolean list membership via decidable equality. -/
def memB [DecidableEq α] (x : α) (l : List α) : Bool :=
  decide (x ∈ l)

/-- Boolean equality of two lists viewed as sets (mutual inclusion). -/
def setEqB [DecidableEq α] (a b : List α) : Bool :=
  a.all (fun x => memB x b) && b.all (fun x => memB x a)

/-- The worker of dedupFirst: drop every element already seen, threading the
set of seen elements. -/
def dedupFirstAux [DecidableEq α] (seen : List α) : List α → List α
  | [] => []
  | x :: xs =>
    if x ∈ seen then dedupFirstAux seen xs
    else x :: dedupFirstAux (x :: seen) xs

/-- Deduplicate a list keeping the first occurrence of each element,
preserving first-seen order. -/
def dedupFirst [DecidableEq α] (l : List α) : List α :=
  dedupFirstAux [] l

/-- Look up the value bound to a key in an association list (first match). -/
def alistLookup [DecidableEq α] (l : List (α × β)) (a : α) : Option β :=
  (l.find? (fun p => decide (p.1 = a))).map (fun p => p.2)

/-- Look up the key bound to a value in an association list (first match). -/
def alistRevLookup [DecidableEq β] (l : List (α × β)) (b : β) : Option α :=
  (l.find? (fun p => decide (p.2 = b))).map (fun p => p.1)

/-- Map a list of keys through an association list; fails when one is
unbound. -/
def mapThrough [DecidableEq α] (l : List (α × β)) : List α → Option (List β)
  | [] => some []
  | a :: as =>
    match alistLookup l a, mapThrough l as with
    | some b, some bs => some (b :: bs)
    | _, _ => none

/-- Map a list of values back through an association list; fails when one is
unbound. -/
def mapThroughRev [DecidableEq β] (l : List (α × β)) : List β → Option (List α)
  | [] => some []
  | b :: bs =>
    match alistRevLookup l b, mapThroughRev l bs with
    | some a, some as => some (a :: as)
    | _, _ => none

/-- Substitute a binding into a lifted atom, producing the ground atom it
stands for; fails when some variable is unbound. -/
def groundOfLifted (s : Sub) (a : LAtom) : Option GAtom :=
  (mapThroughRev s a.args).map (fun os => ⟨a.pred, os⟩)

/-- Lift a ground atom through a binding; fails when some object is unbound. -/
def liftedOfGround (s : Sub) (a : GAtom) : Option LAtom :=
  (mapThrough s a.args).map (fun vs => ⟨a.pred, vs⟩)

/-- Ground the variables of a list of lifted atoms through a binding; fails
when one variable is unbound. -/
def groundList (s : Sub) : List LAtom → Option (List GAtom)
  | [] => some []
  | l :: ls =>
    match groundOfLifted s l, groundList s ls with
    | some g, some gs => some (g :: gs)
    | _, _ => none

/-- All objects appearing in the ground add-effects, then delete-effects,
then routine arguments, deduplicated in first-seen order (spec section 4.4). -/
def objsIn (gAdd gDel : List GAtom) (gArgs : List PObj) : List PObj :=
  dedupFirst (gAdd.flatMap GAtom.args ++ gDel.flatMap GAtom.args ++ gArgs)

/-- All variables appearing in the lifted add-effects, delete-effects and
routine arguments, deduplicated in first-seen order. -/
def varsIn (lAdd lDel : List LAtom) (lArgs : List PVar) : List PVar :=
  dedupFirst (lAdd.flatMap LAtom.args ++ lDel.flatMap LAtom.args ++ lArgs)

/-- Modelled from the spec: the candidate space of the unifier's backtracking
search (spec section 4.3) — every assignment of the ground objects, in order,
to distinct type-compatible lifted variables. -/
def injAssigns : List PObj → List PVar → List Sub
  | [], _ => [[]]
  | o :: os, vs =>
    (vs.filter (fun v => decide (v.ty = o.ty))).flatMap
      (fun v => (injAssigns os (vs.erase v)).map (fun s => (o, v) :: s))

/-- Substituting the binding into the lifted atoms yields exactly the ground
atoms, compared as sets. -/
def checkAtoms (s : Sub) (gs : List GAtom) (ls : List LAtom) : Bool :=
  match groundList s ls with
  | some im => setEqB im gs
  | none => false

/-- Applying the binding to the lifted routine arguments yields exactly the
ground routine arguments, positionally. -/
def checkArgs (s : Sub) (gArgs : List PObj) (lArgs : List PVar) : Bool :=
  match mapThroughRev s lArgs with
  | some im => decide (im = gArgs)
  | none => false

/-- The joint condition of unification: one single binding must carry the
add-effects, the delete-effects, and the routine arguments simultaneously. -/
def checkJoint (gAdd : List GAtom) (lAdd : List LAtom) (gDel : List GAtom)
    (lDel : List LAtom) (gArgs : List PObj) (lArgs : List PVar) (s : Sub) : Bool :=
  checkAtoms s gAdd lAdd && checkAtoms s gDel lDel && checkArgs s gArgs lArgs

/-- Modelled from the spec: unify_effects_and_options (spec section 4.3; its
implementation module is not among the provided sources).  Attempts to find a
single mapping, bijective on its domain, from every object appearing in the
ground sets/args to a variable appearing in the lifted sets/args, such that
the mapping carries the lifted add-effects onto the ground add-effects, the
lifted delete-effects onto the ground delete-effects, and the lifted routine
arguments onto the ground routine arguments positionally; different routine
identities always fail.  Failure is returned as (false, none), never raised.
Routine identity is `none` for the routine-agnostic (unknown-option) form. -/
def unify_effects_and_options (gAdd : List GAtom) (lAdd : List LAtom)
    (gDel : List GAtom) (lDel : List LAtom)
    (gOptName lOptName : Option String)
    (gArgs : List PObj) (lArgs : List PVar) : Bool × Option Sub :=
  if gOptName = lOptName then
    match (injAssigns (objsIn gAdd gDel gArgs) (varsIn lAdd lDel lArgs)).find?
        (checkJoint gAdd lAdd gDel lDel gArgs lArgs) with
    | some s => (true, some s)
    | none => (false, none)
  else (false, none)

/-- The option (control-routine) specification attached to an action when it
is known: routine identity, concrete argument objects, and the continuous
parameter value, which is irrelevant to segmentation (spec sections 3, 4.1).
The continuous parameter is represented as a scaled integer. -/
structure OptSpec where
  name : String
  args : List PObj
  params : Int
deriving DecidableEq

/-- An action of a trajectory; `spec` is `none` for unknown-option data. -/
structure ActionT where
  spec : Option OptSpec
deriving DecidableEq

/-- A segment: its actions, the ground-atom sets at its two boundaries, and,
when known, the identity and concrete argument objects of the acting routine
(spec section 3).  The low-level states play no role in the pipeline's
symbolic computations and are omitted. -/
structure Segment where
  actions : List ActionT
  initAtoms : List GAtom
  finalAtoms : List GAtom
  segOpt : Option (String × List PObj)
deriving DecidableEq

/-- The symbolic part of an action's option: identity and object arguments,
without the continuous parameter. -/
def stripAct (a : ActionT) : Option (String × List PObj) :=
  a.spec.map (fun sp => (sp.name, sp.args))

/-- Modelled from the spec: the boundary test of the segmenter (spec section
4.1).  A segment closes after the current action when the abstraction changes
across it, or — when the option is known and a next action exists — when the
option identity or object arguments change to the next action; a change of
continuous parameter alone never closes a segment. -/
def stepSwitch (a : ActionT) (prevAtoms curAtoms : List GAtom)
    (rest : List (ActionT × List GAtom)) : Bool :=
  !(setEqB prevAtoms curAtoms) ||
    (match a.spec, rest with
     | some sp, (a2, _) :: _ =>
       match a2.spec with
       | some sp2 => decide (¬(sp.name = sp2.name ∧ sp.args = sp2.args))
       | none => false
     | _, _ => false)

/-- Modelled from the spec: the scanning loop of segment_trajectory.  It
accumulates a running segment and closes it at each boundary; the trailing
in-progress segment is discarded when the steps run out (spec section 4.1). -/
def segGo (curInit : List GAtom) (curActs : List ActionT)
    (prevAtoms : List GAtom) : List (ActionT × List GAtom) → List Segment
  | [] => []
  | (a, atoms) :: rest =>
    if stepSwitch a prevAtoms atoms rest then
      ⟨curActs ++ [a], curInit, atoms, stripAct a⟩ :: segGo atoms [] atoms rest
    else
      segGo curInit (curActs ++ [a]) atoms rest

/-- Modelled from the spec: segment_trajectory (spec section 4.1; its
implementation module is not among the provided sources).  A trajectory is the
initial abstraction plus, for each action, the abstraction reached after it —
encoding the source's (states, actions, abstractions) triple with one more
abstraction than actions. -/
def segment_trajectory (initAtoms : List GAtom)
    (steps : List (ActionT × List GAtom)) : List Segment :=
  segGo initAtoms [] initAtoms steps

/-- Modelled from the spec: a segment's add-effects — the atoms true at the
final boundary and false at the initial one (spec section 4.2). -/
def addEffects (seg : Segment) : List GAtom :=
  seg.finalAtoms.filter (fun a => !(memB a seg.initAtoms))

/-- Modelled from the spec: a segment's delete-effects — the atoms true at the
initial boundary and false at the final one (spec section 4.2). -/
def delEffects (seg : Segment) : List GAtom :=
  seg.initAtoms.filter (fun a => !(memB a seg.finalAtoms))

/-- The routine identity of a segment, when known. -/
def segOptName (seg : Segment) : Option String :=
  seg.segOpt.map (fun p => p.1)

/-- The routine argument objects of a segment ([] when unknown). -/
def segOptArgs (seg : Segment) : List PObj :=
  (seg.segOpt.map (fun p => p.2)).getD []

/-- Lift a set of ground atoms through a binding, keeping exactly the atoms
all of whose objects are in the binding's domain (set semantics). -/
def liftAtoms (s : Sub) (atoms : List GAtom) : List LAtom :=
  dedupFirst (atoms.filterMap (liftedOfGround s))

/-- Lift a routine argument list through a binding (total by construction for
cluster bindings; defaults to [] otherwise). -/
def liftArgs (s : Sub) (args : List PObj) : List PVar :=
  (mapThrough s args).getD []

/-- The objects involved in a segment's effects and routine arguments, in
first-seen order — the objects that become the parameters of a cluster
founded by this segment (spec section 4.4 step 2). -/
def segObjs (seg : Segment) : List PObj :=
  objsIn (addEffects seg) (delEffects seg) (segOptArgs seg)

/-- The fresh parameter variables of a cluster founded by a segment: one per
involved object, numbered in first-seen order, with the object's type. -/
def segParams (seg : Segment) : List PVar :=
  (segObjs seg).enum.map (fun p => (⟨p.1, p.2.ty⟩ : PVar))

/-- The founding binding of a cluster: each involved object mapped to its
fresh parameter variable. -/
def segSub0 (seg : Segment) : Sub :=
  (segObjs seg).zip (segParams seg)

/-- A cluster of the induction engine: the lifted template fixed by its first
member (parameters, effects, routine), the precondition set re-generalized as
members join, and the member segments with their recorded bindings
(spec section 4.4). -/
structure Cluster where
  params : List PVar
  pre : List LAtom
  addE : List LAtom
  delE : List LAtom
  clOpt : Option (String × List PVar)
  members : List (Segment × Sub)
deriving DecidableEq

/-- Modelled from the spec: cluster creation (spec section 4.4 step 2).
Parameters are fresh variables, one per involved object in first-seen order
across add-effects, delete-effects, then routine arguments; effects and
routine arguments are the direct renaming; the initial preconditions are all
pre-state atoms expressible purely over the parameter objects. -/
def newCluster (seg : Segment) : Cluster :=
  { params := segParams seg
    pre := liftAtoms (segSub0 seg) seg.initAtoms
    addE := liftAtoms (segSub0 seg) (addEffects seg)
    delE := liftAtoms (segSub0 seg) (delEffects seg)
    clOpt := seg.segOpt.map (fun p => (p.1, liftArgs (segSub0 seg) p.2))
    members := [(seg, segSub0 seg)] }

/-- Modelled from the spec: adding a member to a cluster re-generalizes the
preconditions to the intersection of the previous precondition set and the
new member's lifted pre-state atoms under the found binding; effects and
routine arguments are never re-generalized (spec section 4.4 step 2). -/
def updateCluster (c : Cluster) (seg : Segment) (s : Sub) : Cluster :=
  { c with
    pre := c.pre.filter (fun a => memB a (liftAtoms s seg.initAtoms))
    members := c.members ++ [(seg, s)] }

/-- The routine identity of a cluster's template, when known. -/
def clName (c : Cluster) : Option String :=
  c.clOpt.map (fun p => p.1)

/-- The lifted routine arguments of a cluster's template ([] when unknown). -/
def clArgs (c : Cluster) : List PVar :=
  (c.clOpt.map (fun p => p.2)).getD []

/-- Unify a segment's ground effects and routine against a cluster's current
lifted template. -/
def unifyWithCluster (seg : Segment) (c : Cluster) : Bool × Option Sub :=
  unify_effects_and_options (addEffects seg) c.addE (delEffects seg) c.delE
    (segOptName seg) (clName c) (segOptArgs seg) (clArgs c)

/-- Modelled from the spec: try the existing clusters in order; the first
cluster that unifies receives the segment (spec section 4.4 step 2 and the
first-cluster-wins tie-break of section 9). -/
def tryAdd : List Cluster → Segment → Option (List Cluster)
  | [], _ => none
  | c :: cs, seg =>
    match unifyWithCluster seg c with
    | (true, some s) => some (updateCluster c seg s :: cs)
    | _ => (tryAdd cs seg).map (fun cs2 => c :: cs2)

/-- Modelled from the spec: process one segment of the induction loop — join
the first unifying cluster, or start a new cluster at the end of the list. -/
def addSegment (cls : List Cluster) (seg : Segment) : List Cluster :=
  match tryAdd cls seg with
  | some cls2 => cls2
  | none => cls ++ [newCluster seg]

/-- Modelled from the spec: the incremental clustering loop over all segments
in input order (spec section 4.4 steps 1 and 2). -/
def learnClusters (segs : List Segment) : List Cluster :=
  segs.foldl addSegment []

/-- A STRIPS-style operator emitted from a surviving cluster. -/
structure STRIPSOperator where
  params : List PVar
  pre : List LAtom
  addE : List LAtom
  delE : List LAtom
  opOpt : Option (String × List PVar)
deriving DecidableEq

/-- The operator emitted from a cluster. -/
def clusterToOp (c : Cluster) : STRIPSOperator :=
  ⟨c.params, c.pre, c.addE, c.delE, c.clOpt⟩

/-- Modelled from the spec: learn_strips_operators (spec section 4.4; its
implementation module is not among the provided sources).  Clusters all
segments, drops every cluster whose member count is below the configured
minimum-support threshold (min_data_for_nsrt, threaded explicitly), and emits
one operator per surviving cluster in creation order. -/
def learn_strips_operators (segs : List Segment) (minData : Nat) :
    List STRIPSOperator :=
  ((learnClusters segs).filter
    (fun c => decide (minData ≤ c.members.length))).map clusterToOp

/-! Operator equivalence up to variable renumbering, used to compare learned
operator sets as the spec's canonical strings do (section 6): two operators
are equivalent when some type-respecting bijection of their parameter lists
carries preconditions, add-effects, delete-effects and the routine argument
list of one onto the other. -/

/-- Rename the variables of a lifted atom. -/
def renAtom (r : List (PVar × PVar)) (a : LAtom) : Option LAtom :=
  (mapThrough r a.args).map (fun vs => ⟨a.pred, vs⟩)

/-- All injective type-respecting assignments of the first variable list into
the second, as association lists. -/
def renOf : List PVar → List PVar → List (List (PVar × PVar))
  | [], _ => [[]]
  | v :: vs, ws =>
    (ws.filter (fun w => decide (w.ty = v.ty))).flatMap
      (fun w => (renOf vs (ws.erase w)).map (fun r => (v, w) :: r))

/-- Two operators are equal up to variable renumbering: some bijection of the
parameter lists carries every component of one onto the other. -/
def opEquivB (o1 o2 : STRIPSOperator) : Bool :=
  decide (o1.params.length = o2.params.length) &&
  (renOf o1.params o2.params).any (fun r =>
    match o1.pre.mapM (renAtom r), o1.addE.mapM (renAtom r),
        o1.delE.mapM (renAtom r) with
    | some p, some a, some d =>
      setEqB p o2.pre && setEqB a o2.addE && setEqB d o2.delE &&
      (match o1.opOpt, o2.opOpt with
       | none, none => true
       | some pr1, some pr2 =>
         decide (pr1.1 = pr2.1) &&
         (match mapThrough r pr1.2 with
          | some im => decide (im = pr2.2)
          | none => false)
       | _, _ => false)
    | _, _, _ => false)

/-- Two operator lists are equal as multisets up to variable renumbering:
each operator of the first matches a distinct operator of the second. -/
def opsMatch : List STRIPSOperator → List STRIPSOperator → Bool
  | [], l2 => decide (l2 = [])
  | o :: os, l2 =>
    (List.range l2.length).any (fun j =>
      opEquivB o (l2.getD j ⟨[], [], [], [], none⟩) &&
      opsMatch os (l2.eraseIdx j))

/-! The sampler attached to a learned operator (spec section 4.5).  Model
fitting is external; a fitted model is abstracted by the proposal stream
`propose` and the feasibility classifier `feasible`.  Continuous parameters
are rationals; the routine's declared parameter space is an interval. -/

/-- A routine's declared one-dimensional parameter space. -/
structure ParamSpace where
  lo : ℚ
  hi : ℚ
deriving DecidableEq

/-- Membership in a declared parameter space. -/
def inSpace (sp : ParamSpace) (p : ℚ) : Prop :=
  sp.lo ≤ p ∧ p ≤ sp.hi

instance (sp : ParamSpace) (p : ℚ) : Decidable (inSpace sp p) := by
  unfold inSpace; infer_instance

/-- Modelled from the spec: a uniform draw over the declared parameter space,
abstracting the external random generator by the supplied value `r`, mapped
into the space. -/
def uniformDraw (sp : ParamSpace) (r : ℚ) : ℚ :=
  max sp.lo (min sp.hi r)

/-- Modelled from the spec: rejection sampling of the learned sampler (spec
section 4.5; the sampler-learning module is not among the provided sources).
Up to `maxTries` proposals are drawn from the fitted model; the first feasible
in-space draw is returned, and when the tries are exhausted or the budget is
zero the sampler falls back to a uniform draw over the declared space. -/
def rejectionSample (sp : ParamSpace) (propose : Nat → ℚ) (feasible : ℚ → Bool)
    (maxTries : Nat) (r : ℚ) : ℚ :=
  match (List.range maxTries).find?
      (fun i => feasible (propose i) && decide (inSpace sp (propose i))) with
  | some i => propose i
  | none => uniformDraw sp r

/-- Modelled from the spec: one invocation of the sampler produced by
learn_sampler.  When do_sampler_learning is false the sampler is a uniform
draw over the declared space and no model is fitted — the model inputs
`propose` and `feasible` are not consulted at all on that path. -/
def sampler_draw (doSamplerLearning : Bool) (sp : ParamSpace)
    (propose : Nat → ℚ) (feasible : ℚ → Bool) (maxTries : Nat) (r : ℚ) : ℚ :=
  if doSamplerLearning then rejectionSample sp propose feasible maxTries r
  else uniformDraw sp r

/-! The teacher dataset builder, translated from
src/src/datasets/teacher.py.  The external ground-atom abstraction
(utils.abstract) is represented by giving each state directly as its list of
true ground atoms; the external numpy generator's choice of a duplicate-free
index subset (rng.choice with replace=False) is abstracted by the function
`choose`. -/

/-- The per-state body of create_teacher_dataset's inner loop: keep the atoms
at int(len * labelShare) chosen distinct indices, as a set. -/
def teacherEntry (labelShare : ℚ) (choose : Nat → Nat → List Nat)
    (atoms : List GAtom) : List GAtom :=
  dedupFirst ((choose atoms.length
    (Int.floor (labelShare * atoms.length)).toNat).filterMap
      (fun j => atoms.get? j))

/-- create_teacher_dataset from src/src/datasets/teacher.py: one output entry
per input trajectory, one sparse ground-atom set per state. -/
def create_teacher_dataset (labelShare : ℚ) (choose : Nat → Nat → List Nat)
    (dataset : List (List (List GAtom))) : List (List (List GAtom)) :=
  dataset.map (fun traj => traj.map (teacherEntry labelShare choose))

/-! Concrete data mirroring the repository's test scenarios
(src/tests/test_nsrt_learning.py). -/

/-- The single object type of the test scenarios. -/
def cupTy : String := "cup_type"

/-- Test object cup0. -/
def cup0 : PObj := ⟨"cup0", cupTy⟩
/-- Test object cup1. -/
def cup1 : PObj := ⟨"cup1", cupTy⟩
/-- Test object cup2. -/
def cup2 : PObj := ⟨"cup2", cupTy⟩

/-- The abstraction of the test's state0 (cup0 at 0.4, cup1 at 0.7,
cup2 at 0.1) under Pred0, Pred1, Pred2. -/
def atoms0 : List GAtom :=
  [⟨"Pred0", [cup1]⟩, ⟨"Pred1", [cup1, cup0]⟩, ⟨"Pred1", [cup1, cup1]⟩,
   ⟨"Pred1", [cup1, cup2]⟩, ⟨"Pred2", [cup1]⟩]

/-- The abstraction of the test's state1 (cup0 at 0.8, cup1 at 0.3,
cup2 at 1.0). -/
def atoms1 : List GAtom :=
  [⟨"Pred0", [cup0]⟩, ⟨"Pred0", [cup2]⟩,
   ⟨"Pred1", [cup0, cup0]⟩, ⟨"Pred1", [cup0, cup1]⟩, ⟨"Pred1", [cup0, cup2]⟩,
   ⟨"Pred1", [cup2, cup0]⟩, ⟨"Pred1", [cup2, cup1]⟩, ⟨"Pred1", [cup2, cup2]⟩,
   ⟨"Pred2", [cup0]⟩, ⟨"Pred2", [cup2]⟩]

/-- Known-option action: dummy routine on cup0 with continuous parameter 0.2
(scaled to the integer 2). -/
def actA0 : ActionT := ⟨some ⟨"dummy", [cup0], 2⟩⟩
/-- Known-option action: dummy routine on cup0 with continuous parameter 0.1. -/
def actA1 : ActionT := ⟨some ⟨"dummy", [cup0], 1⟩⟩
/-- Known-option action: dummy routine on cup1 with continuous parameter 0.1. -/
def actA2 : ActionT := ⟨some ⟨"dummy", [cup1], 1⟩⟩
/-- An action with unknown option. -/
def actU : ActionT := ⟨none⟩

/-- The known-option test trajectory: constant abstraction, option arguments
changing at the third and fourth actions. -/
def knownSteps : List (ActionT × List GAtom) :=
  [(actA0, atoms0), (actA1, atoms0), (actA2, atoms0), (actA0, atoms0)]

/-- The unknown-option abstraction-constant 5-state/4-action trajectory. -/
def unkSteps4 : List (ActionT × List GAtom) :=
  [(actU, atoms0), (actU, atoms0), (actU, atoms0), (actU, atoms0)]

/-- The unknown-option 6-state/5-action trajectory whose abstraction changes
only at the very last step. -/
def unkSteps5 : List (ActionT × List GAtom) :=
  [(actU, atoms0), (actU, atoms0), (actU, atoms0), (actU, atoms0),
   (actU, atoms1)]

/-- The single unknown-option segment of the test: one symbolic transition
from atoms0 to atoms1. -/
def segU : Segment := ⟨[actU], atoms0, atoms1, none⟩

/-- A segment with a lone add-effect, forming its own cluster. -/
def segAddOnly : Segment :=
  ⟨[actU], [], [⟨"Pred0", [cup0, cup1]⟩], some ("dummy", [])⟩

/-- A segment with a lone delete-effect, forming its own cluster. -/
def segDelOnly : Segment :=
  ⟨[actU], [⟨"Pred0", [cup1, cup2]⟩], [], some ("dummy", [])⟩

/-- Path objects for the order-dependence counterexample. -/
def oA : PObj := ⟨"a", cupTy⟩
/-- Path object b. -/
def oB : PObj := ⟨"b", cupTy⟩
/-- Path object c. -/
def oC : PObj := ⟨"c", cupTy⟩
/-- Path object d. -/
def oD : PObj := ⟨"d", cupTy⟩
/-- Path object p. -/
def oP : PObj := ⟨"p", cupTy⟩
/-- Path object q. -/
def oQ : PObj := ⟨"q", cupTy⟩
/-- Path object r. -/
def oR : PObj := ⟨"r", cupTy⟩
/-- Path object s. -/
def oS : PObj := ⟨"s", cupTy⟩

/-- Binary edge atom. -/
def edge (x y : PObj) : GAtom := ⟨"E", [x, y]⟩
/-- Unary marker atom. -/
def mark (x : PObj) : GAtom := ⟨"Q", [x]⟩

/-- Counterexample segment F: its add-effects are the undirected path
a-b-c-d (whose only nontrivial symmetry is the path reversal) and its
pre-state marks the first path endpoint. -/
def segF : Segment :=
  ⟨[actU], [mark oA],
   [mark oA, edge oA oB, edge oB oA, edge oB oC, edge oC oB, edge oC oD,
    edge oD oC],
   some ("o", [])⟩

/-- Counterexample segment M: the same shape over p-q-r-s, also marking the
first path endpoint, but with the effect atoms listed so that the objects are
first seen in the order q, r, s, p. -/
def segM : Segment :=
  ⟨[actU], [mark oP],
   [mark oP, edge oQ oR, edge oR oQ, edge oR oS, edge oP oQ, edge oQ oP,
    edge oS oR],
   some ("o", [])⟩

/-! Specification vocabulary used by the theorems below. -/

/-- The lifted pre-state atoms of a cluster member under its recorded
binding, restricted to the atoms expressible over the binding's domain. -/
def memberPre (m : Segment × Sub) : List LAtom :=
  liftAtoms m.2 m.1.initAtoms

/-- The precondition invariant of a cluster: its precondition set equals the
intersection, under the recorded member bindings, of the lifted pre-state
atoms of all member segments. -/
def precInv (c : Cluster) : Prop :=
  ∀ a : LAtom, a ∈ c.pre ↔ ∀ m ∈ c.members, a ∈ memberPre m

/-- The total number of actions covered by a list of segments. -/
def coveredActions (segs : List Segment) : Nat :=
  (segs.map (fun s => s.actions.length)).sum

/-- The abstraction immediately before the last one of a trajectory:
the second-to-last step's atoms, or the running abstraction when fewer than
two steps remain. -/
def penultAtoms (pa : List GAtom) : List (ActionT × List GAtom) → List GAtom
  | [] => pa
  | [_] => pa
  | st :: rest => penultAtoms st.2 rest

/-- Lifted variable w of the joint-unification test. -/
def varW : PVar := ⟨0, cupTy⟩
/-- Lifted variable x of the joint-unification test. -/
def varX : PVar := ⟨1, cupTy⟩
/-- Lifted variable y of the joint-unification test. -/
def varY : PVar := ⟨2, cupTy⟩
/-- Lifted variable z of the joint-unification test. -/
def varZ : PVar := ⟨3, cupTy⟩

/-- Ground add-effects of the joint-unification test: Pred0(cup1, cup2). -/
def gAddW : List GAtom := [⟨"Pred0", [cup1, cup2]⟩]
/-- Lifted add-effects of the joint-unification test: Pred0(y, z). -/
def lAddW : List LAtom := [⟨"Pred0", [varY, varZ]⟩]

/-- The known-option test trajectory with every continuous parameter value
changed; its symbolic content is identical to knownSteps. -/
def knownStepsAlt : List (ActionT × List GAtom) :=
  [(⟨some ⟨"dummy", [cup0], 7⟩⟩, atoms0), (⟨some ⟨"dummy", [cup0], 8⟩⟩, atoms0),
   (⟨some ⟨"dummy", [cup1], 9⟩⟩, atoms0), (⟨some ⟨"dummy", [cup0], 6⟩⟩, atoms0)]

/-- The declared parameter space of the test's dummy routine: Box(0.1, 1). -/
def spW : ParamSpace := ⟨1 / 10, 1⟩

/-- Map a ground atom's objects through an object-to-object correspondence. -/
def corrAtom (φ : List (PObj × PObj)) (g : GAtom) : Option GAtom :=
  (mapThrough φ g.args).map (fun os => ⟨g.pred, os⟩)

/-- A directed ground-level isomorphism between two segments' effect/routine
tuples: a type-respecting bijection from the involved objects of s onto the
involved objects of t that carries the add-effects, delete-effects, and
routine arguments of s exactly onto those of t, with equal routine identity.
This is the order-free content of a successful unification between the two
segments. -/
def GroundIsoFwd (s t : Segment) : Prop :=
  segOptName s = segOptName t ∧
  ∃ φ : List (PObj × PObj),
    φ.map Prod.fst = segObjs s ∧
    (φ.map Prod.snd).Nodup ∧
    (∀ p ∈ φ, p.2 ∈ segObjs t ∧ p.2.ty = p.1.ty) ∧
    (∀ o ∈ segObjs t, o ∈ φ.map Prod.snd) ∧
    (∀ g ∈ addEffects s, ∃ g2 ∈ addEffects t, corrAtom φ g = some g2) ∧
    (∀ g2 ∈ addEffects t, ∃ g ∈ addEffects s, corrAtom φ g = some g2) ∧
    (∀ g ∈ delEffects s, ∃ g2 ∈ delEffects t, corrAtom φ g = some g2) ∧
    (∀ g2 ∈ delEffects t, ∃ g ∈ delEffects s, corrAtom φ g = some g2) ∧
    mapThrough φ (segOptArgs s) = some (segOptArgs t)

/-! Basic lemmas about the list-set primitives. -/

theorem memB_iff [DecidableEq α] (x : α) (l : List α) : memB x l = true ↔ x ∈ l := by
  simp [memB]

theorem setEqB_iff [DecidableEq α] (a b : List α) :
    setEqB a b = true ↔ (∀ x ∈ a, x ∈ b) ∧ ∀ x ∈ b, x ∈ a := by
  simp [setEqB, List.all_eq_true, memB]

theorem setEqB_refl [DecidableEq α] (l : List α) : setEqB l l = true := by
  simp [setEqB_iff]

theorem mem_dedupFirstAux [DecidableEq α] (l : List α) :
    ∀ (seen : List α) (a : α), a ∈ dedupFirstAux seen l ↔ a ∈ l ∧ a ∉ seen := by
  induction l with
  | nil => intro seen a; simp [dedupFirstAux]
  | cons x xs ih =>
    intro seen a
    simp only [dedupFirstAux]
    by_cases hx : x ∈ seen
    · rw [if_pos hx, ih]
      simp only [List.mem_cons]
      constructor
      · exact fun h => ⟨Or.inr h.1, h.2⟩
      · rintro ⟨hax | hax, hs⟩
        · exact absurd (hax ▸ hx) hs
        · exact ⟨hax, hs⟩
    · rw [if_neg hx]
      simp only [List.mem_cons, ih, List.mem_cons]
      constructor
      · rintro (rfl | ⟨hax, hne⟩)
        · exact ⟨Or.inl rfl, hx⟩
        · exact ⟨Or.inr hax, fun hs => hne (Or.inr hs)⟩
      · rintro ⟨rfl | hax, hs⟩
        · exact Or.inl rfl
        · by_cases hax2 : a = x
          · exact Or.inl hax2
          · exact Or.inr ⟨hax, fun hc => hc.elim hax2 hs⟩

theorem mem_dedupFirst [DecidableEq α] (l : List α) (a : α) :
    a ∈ dedupFirst l ↔ a ∈ l := by
  simp [dedupFirst, mem_dedupFirstAux]

theorem nodup_dedupFirstAux [DecidableEq α] (l : List α) :
    ∀ seen : List α, (dedupFirstAux seen l).Nodup := by
  induction l with
  | nil => intro seen; simp [dedupFirstAux]
  | cons x xs ih =>
    intro seen
    simp only [dedupFirstAux]
    by_cases hx : x ∈ seen
    · rw [if_pos hx]; exact ih seen
    · rw [if_neg hx]
      refine List.nodup_cons.mpr ⟨fun hmem => ?_, ih (x :: seen)⟩
      rw [mem_dedupFirstAux] at hmem
      exact hmem.2 (List.mem_cons_self x seen)

theorem nodup_dedupFirst [DecidableEq α] (l : List α) : (dedupFirst l).Nodup :=
  nodup_dedupFirstAux l []

theorem dedupFirstAux_eq_self [DecidableEq α] (l : List α) :
    ∀ seen : List α, l.Nodup → (∀ a ∈ l, a ∉ seen) → dedupFirstAux seen l = l := by
  induction l with
  | nil => intro seen _ _; rfl
  | cons x xs ih =>
    intro seen hnd hdisj
    simp only [dedupFirstAux]
    rw [if_neg (hdisj x (List.mem_cons_self x xs))]
    congr 1
    refine ih (x :: seen) (List.nodup_cons.mp hnd).2 (fun a ha => ?_)
    intro hc
    rcases List.mem_cons.mp hc with rfl | hc2
    · exact (List.nodup_cons.mp hnd).1 ha
    · exact hdisj a (List.mem_cons_of_mem x ha) hc2

theorem dedupFirst_eq_self [DecidableEq α] {l : List α} (h : l.Nodup) :
    dedupFirst l = l :=
  dedupFirstAux_eq_self l [] h (fun a _ => List.not_mem_nil a)

/-- C9: for every segment, the derived add-effects are exactly the atoms of
the final boundary set absent from the initial one, and the delete-effects
exactly the atoms of the initial set absent from the final one; both are pure
derived views of the segment — the boundary sets themselves are untouched,
the embedding being purely functional. -/
theorem effects_are_set_differences (seg : Segment) (a : GAtom) :
    (a ∈ addEffects seg ↔ a ∈ seg.finalAtoms ∧ a ∉ seg.initAtoms) ∧
    (a ∈ delEffects seg ↔ a ∈ seg.initAtoms ∧ a ∉ seg.finalAtoms) := by
  constructor <;> simp [addEffects, delEffects, List.mem_filter, memB]

/-- C5: whenever the ground and lifted routine identities differ,
unify_effects_and_options returns (false, none) regardless of the effects and
argument lists; the embedding is a total function, so failure is always this
first-class result and never an exception. -/
theorem unify_fails_on_different_options (gAdd : List GAtom) (lAdd : List LAtom)
    (gDel : List GAtom) (lDel : List LAtom) (gOptName lOptName : Option String)
    (gArgs : List PObj) (lArgs : List PVar) (h : gOptName ≠ lOptName) :
    unify_effects_and_options gAdd lAdd gDel lDel gOptName lOptName gArgs lArgs =
      (false, none) := by
  simp [unify_effects_and_options, h]

/-- Witness for C5 at the test's concrete input: identical empty effects and
identical argument lists, but routine dummy0 against routine dummy1. -/
theorem unify_fails_on_different_options_witness :
    (some "dummy0" : Option String) ≠ some "dummy1" ∧
    unify_effects_and_options [] [] [] [] (some "dummy0") (some "dummy1")
      [cup0, cup1] [varW, varX] = (false, none) := by
  refine ⟨by decide, ?_⟩
  exact unify_fails_on_different_options [] [] [] [] _ _ [cup0, cup1]
    [varW, varX] (by decide)

/-- C6: operator induction drops exactly the clusters whose member count is
below the minimum-support threshold: an empty segment list yields an empty
operator list, threshold 0 keeps every cluster (so a cluster of size 1
survives), and when every cluster is below the threshold the result is the
empty list — always returned normally by the total function. -/
theorem min_data_threshold_filtering :
    (∀ k, learn_strips_operators [] k = []) ∧
    (∀ segs, learn_strips_operators segs 0 =
      (learnClusters segs).map clusterToOp) ∧
    (∀ segs k, (∀ c ∈ learnClusters segs, c.members.length < k) →
      learn_strips_operators segs k = []) := by
  refine ⟨fun k => rfl, fun segs => ?_, fun segs k h => ?_⟩
  · unfold learn_strips_operators
    congr 1
    apply List.filter_eq_self.mpr
    intro c _
    simp
  · unfold learn_strips_operators
    have hf : (learnClusters segs).filter
        (fun c => decide (k ≤ c.members.length)) = [] := by
      apply List.filter_eq_nil_iff.mpr
      intro c hc
      simpa using Nat.not_le.mpr (h c hc)
    rw [hf]
    rfl

/-- Witness for C6: with minimum support 3, the two one-member clusters of
the add-only and delete-only segments are both dropped and the result is the
empty operator list. -/
theorem min_data_threshold_filtering_witness :
    (∀ c ∈ learnClusters [segAddOnly, segDelOnly], c.members.length < 3) ∧
    learn_strips_operators [segAddOnly, segDelOnly] 3 = [] := by
  refine ⟨by decide, ?_⟩
  exact min_data_threshold_filtering.2.2 [segAddOnly, segDelOnly] 3 (by decide)

theorem uniformDraw_inSpace (sp : ParamSpace) (r : ℚ) (h : sp.lo ≤ sp.hi) :
    inSpace sp (uniformDraw sp r) := by
  unfold inSpace uniformDraw
  exact ⟨le_max_left _ _, max_le h (min_le_left _ _)⟩

/-- C8: every invocation of the modelled sampler returns a value inside the
routine's declared parameter space; when sampler learning is disabled it is
exactly the uniform draw (no model consulted), and rejection sampling falls
back to the uniform draw when the try budget is zero or every try is
infeasible or out of space. -/
theorem sampler_in_param_space (sp : ParamSpace) (propose : Nat → ℚ)
    (feasible : ℚ → Bool) (maxTries : Nat) (r : ℚ) (doLearn : Bool)
    (h : sp.lo ≤ sp.hi) :
    inSpace sp (sampler_draw doLearn sp propose feasible maxTries r) ∧
    sampler_draw false sp propose feasible maxTries r = uniformDraw sp r ∧
    sampler_draw true sp propose feasible 0 r = uniformDraw sp r ∧
    ((∀ i, i < maxTries → ¬(feasible (propose i) = true ∧ inSpace sp (propose i))) →
      sampler_draw true sp propose feasible maxTries r = uniformDraw sp r) := by
  refine ⟨?_, rfl, by simp [sampler_draw, rejectionSample], fun hex => ?_⟩
  · cases doLearn with
    | false => exact uniformDraw_inSpace sp r h
    | true =>
      simp only [sampler_draw, if_pos, rejectionSample]
      cases hfind : (List.range maxTries).find?
          (fun i => feasible (propose i) && decide (inSpace sp (propose i))) with
      | none => exact uniformDraw_inSpace sp r h
      | some i =>
        have hp := List.find?_some hfind
        rw [Bool.and_eq_true, decide_eq_true_eq] at hp
        exact hp.2
  · simp only [sampler_draw, if_pos, rejectionSample]
    have hnone : (List.range maxTries).find?
        (fun i => feasible (propose i) && decide (inSpace sp (propose i))) = none := by
      rw [List.find?_eq_none]
      intro i hi
      rw [Bool.and_eq_true, decide_eq_true_eq]
      exact hex i (List.mem_range.mp hi)
    rw [hnone]

/-- Witness for C8: the dummy routine's space Box(0.1, 1), a proposal stream
stuck at the out-of-space value 2, a try budget of 3: every try is rejected,
the sampler falls back to the uniform draw, and the result is in the space. -/
theorem sampler_in_param_space_witness :
    spW.lo ≤ spW.hi ∧
    (∀ i, i < 3 → ¬((fun _ : ℚ => true) ((fun _ : Nat => (2 : ℚ)) i) = true ∧
      inSpace spW ((fun _ : Nat => (2 : ℚ)) i))) ∧
    inSpace spW (sampler_draw true spW (fun _ => 2) (fun _ => true) 3 (1 / 2)) ∧
    sampler_draw true spW (fun _ => 2) (fun _ => true) 3 (1 / 2) =
      uniformDraw spW (1 / 2) := by
  have h : spW.lo ≤ spW.hi := by norm_num [spW]
  have hex : ∀ i, i < 3 → ¬((fun _ : ℚ => true) ((fun _ : Nat => (2 : ℚ)) i) = true ∧
      inSpace spW ((fun _ : Nat => (2 : ℚ)) i)) := by
    intro i _ hc
    have := hc.2.2
    norm_num [spW] at this
  exact ⟨h, hex,
    (sampler_in_param_space spW (fun _ => 2) (fun _ => true) 3 (1 / 2) true h).1,
    (sampler_in_param_space spW (fun _ => 2) (fun _ => true) 3 (1 / 2) true h).2.2.2 hex⟩

theorem filterMapGet_spec (atoms : List GAtom) (js : List Nat)
    (hnd : atoms.Nodup) (hjnd : js.Nodup) (hb : ∀ j ∈ js, j < atoms.length) :
    (js.filterMap (fun j => atoms.get? j)).length = js.length ∧
    (js.filterMap (fun j => atoms.get? j)).Nodup ∧
    ∀ a ∈ js.filterMap (fun j => atoms.get? j), a ∈ atoms := by
  induction js with
  | nil => simp
  | cons j js ih =>
    have hj : j < atoms.length := hb j (List.mem_cons_self j js)
    have hrest := ih (List.nodup_cons.mp hjnd).2
      (fun j2 hj2 => hb j2 (List.mem_cons_of_mem j hj2))
    have hget : atoms.get? j = some (atoms.get ⟨j, hj⟩) := List.get?_eq_get hj
    rw [List.filterMap_cons, hget]
    refine ⟨by simp only [List.length_cons]; rw [hrest.1],
      List.nodup_cons.mpr ⟨fun hmem => ?_, hrest.2.1⟩, fun a ha => ?_⟩
    · obtain ⟨j2, hj2mem, hj2get⟩ := List.mem_filterMap.mp hmem
      have hj2 : j2 < atoms.length := hb j2 (List.mem_cons_of_mem j hj2mem)
      rw [List.get?_eq_get hj2, Option.some_inj] at hj2get
      have : (⟨j2, hj2⟩ : Fin atoms.length) = ⟨j, hj⟩ :=
        (List.Nodup.get_inj_iff hnd).mp hj2get
      have : j2 = j := by simpa using congrArg Fin.val this
      exact (List.nodup_cons.mp hjnd).1 (this ▸ hj2mem)
    · rcases List.mem_cons.mp ha with rfl | hmem
      · exact List.get_mem atoms _ _
      · exact hrest.2.2 a hmem

/-- C10: create_teacher_dataset returns one entry per input trajectory, and
each per-state entry is a duplicate-free subset of the state's full
ground-atom abstraction containing exactly int(labelShare times the number of
true atoms) atoms.  The external rng.choice with replace=False is abstracted
by `choose`, assumed to return distinct valid indices. -/
theorem create_teacher_dataset_spec (labelShare : ℚ)
    (choose : Nat → Nat → List Nat) (dataset : List (List (List GAtom)))
    (hchoose : ∀ n k2, k2 ≤ n → (choose n k2).length = k2 ∧
      (choose n k2).Nodup ∧ ∀ j ∈ choose n k2, j < n)
    (hshare0 : 0 ≤ labelShare) (hshare1 : labelShare ≤ 1)
    (hnd : ∀ traj ∈ dataset, ∀ atoms ∈ traj, atoms.Nodup) :
    (create_teacher_dataset labelShare choose dataset).length = dataset.length ∧
    create_teacher_dataset labelShare choose dataset =
      dataset.map (fun traj => traj.map (teacherEntry labelShare choose)) ∧
    ∀ traj ∈ dataset, ∀ atoms ∈ traj,
      (teacherEntry labelShare choose atoms).Nodup ∧
      (∀ a ∈ teacherEntry labelShare choose atoms, a ∈ atoms) ∧
      (teacherEntry labelShare choose atoms).length =
        (Int.floor (labelShare * atoms.length)).toNat := by
  refine ⟨by simp [create_teacher_dataset], rfl, fun traj htraj atoms hatoms => ?_⟩
  have hand := hnd traj htraj atoms hatoms
  set n := atoms.length with hn
  set k := (Int.floor (labelShare * n)).toNat with hk
  have hkn : k ≤ n := by
    have h1 : labelShare * (n : ℚ) ≤ (n : ℚ) :=
      mul_le_of_le_one_left (by exact_mod_cast Nat.zero_le n) hshare1
    have h2 : Int.floor (labelShare * (n : ℚ)) ≤ (n : ℤ) := by
      calc Int.floor (labelShare * (n : ℚ)) ≤ Int.floor ((n : ℚ)) :=
            Int.floor_le_floor h1
        _ = (n : ℤ) := Int.floor_natCast n
    calc k ≤ (n : ℤ).toNat := Int.toNat_le_toNat h2
      _ = n := Int.toNat_natCast n
  obtain ⟨hlen, hjnd, hb⟩ := hchoose n k hkn
  have hfm := filterMapGet_spec atoms (choose n k) hand hjnd (fun j hj => hb j hj)
  have hded : dedupFirst ((choose n k).filterMap (fun j => atoms.get? j)) =
      (choose n k).filterMap (fun j => atoms.get? j) :=
    dedupFirst_eq_self hfm.2.1
  have hentry : teacherEntry labelShare choose atoms =
      (choose n k).filterMap (fun j => atoms.get? j) := by
    unfold teacherEntry
    rw [← hn, ← hk]
    exact hded
  rw [hentry]
  exact ⟨hfm.2.1, hfm.2.2, by rw [hfm.1, hlen]⟩

/-- Witness for C10: ratio one half, a choose function returning the first k
indices, and a one-trajectory one-state dataset over the five-atom
abstraction atoms0; the entry keeps exactly two atoms. -/
theorem create_teacher_dataset_spec_witness :
    (∀ n k2, k2 ≤ n → ((fun _ k3 => List.range k3) n k2 : List Nat).length = k2 ∧
      ((fun _ k3 => List.range k3) n k2 : List Nat).Nodup ∧
      ∀ j ∈ ((fun _ k3 => List.range k3) n k2 : List Nat), j < n) ∧
    (0 : ℚ) ≤ 1 / 2 ∧ (1 / 2 : ℚ) ≤ 1 ∧
    (∀ traj ∈ [[atoms0]], ∀ atoms ∈ traj, atoms.Nodup) ∧
    (create_teacher_dataset (1 / 2) (fun _ k3 => List.range k3) [[atoms0]]).length =
      ([[atoms0]] : List (List (List GAtom))).length := by
  have hchoose : ∀ n k2, k2 ≤ n →
      ((fun _ k3 => List.range k3) n k2 : List Nat).length = k2 ∧
      ((fun _ k3 => List.range k3) n k2 : List Nat).Nodup ∧
      ∀ j ∈ ((fun _ k3 => List.range k3) n k2 : List Nat), j < n :=
    fun n k2 hk => ⟨List.length_range k2, List.nodup_range k2,
      fun j hj => lt_of_lt_of_le (List.mem_range.mp hj) hk⟩
  have h0 : (0 : ℚ) ≤ 1 / 2 := by norm_num
  have h1 : (1 / 2 : ℚ) ≤ 1 := by norm_num
  have hnd : ∀ traj ∈ [[atoms0]], ∀ atoms ∈ traj, atoms.Nodup := by decide
  exact ⟨hchoose, h0, h1, hnd,
    (create_teacher_dataset_spec (1 / 2) (fun _ k3 => List.range k3) [[atoms0]]
      hchoose h0 h1 hnd).1⟩

theorem coveredActions_cons (s : Segment) (l : List Segment) :
    coveredActions (s :: l) = s.actions.length + coveredActions l := by
  simp [coveredActions]

theorem segGo_unknown_const (steps : List (ActionT × List GAtom)) :
    ∀ (ci : List GAtom) (ca : List ActionT) (init : List GAtom),
      (∀ st ∈ steps, (st.1).spec = none) → (∀ st ∈ steps, st.2 = init) →
      segGo ci ca init steps = [] := by
  induction steps with
  | nil => intro ci ca init _ _; rfl
  | cons st rest ih =>
    intro ci ca init h1 h2
    obtain ⟨a, atoms⟩ := st
    have hsp : a.spec = none := h1 (a, atoms) (List.mem_cons_self _ _)
    have hat : atoms = init := h2 (a, atoms) (List.mem_cons_self _ _)
    have hsw : stepSwitch a init atoms rest = false := by
      unfold stepSwitch
      rw [hat, setEqB_refl, hsp]
      rfl
    simp only [segGo, hsw, if_neg, Bool.false_eq_true, not_false_eq_true]
    have := ih ci (ca ++ [a]) init
      (fun st2 hst2 => h1 st2 (List.mem_cons_of_mem _ hst2))
      (fun st2 hst2 => h2 st2 (List.mem_cons_of_mem _ hst2))
    rw [hat]
    exact this

theorem segGo_cons (ci : List GAtom) (ca : List ActionT) (pa : List GAtom)
    (a : ActionT) (atoms : List GAtom) (rest : List (ActionT × List GAtom)) :
    segGo ci ca pa ((a, atoms) :: rest) =
      if stepSwitch a pa atoms rest then
        ⟨ca ++ [a], ci, atoms, stripAct a⟩ :: segGo atoms [] atoms rest
      else segGo ci (ca ++ [a]) atoms rest := rfl

theorem segGo_cov_last (steps : List (ActionT × List GAtom)) :
    ∀ (ci : List GAtom) (ca : List ActionT) (pa : List GAtom) (h : steps ≠ []),
      coveredActions (segGo ci ca pa steps) = ca.length + steps.length →
      setEqB (penultAtoms pa steps) ((steps.getLast h).2) = false := by
  induction steps with
  | nil => intro ci ca pa h; exact absurd rfl h
  | cons st rest ih =>
    intro ci ca pa h hcov
    obtain ⟨a, atoms⟩ := st
    cases rest with
    | nil =>
      rw [segGo_cons] at hcov
      by_cases hs : stepSwitch a pa atoms [] = true
      · rw [if_pos hs] at hcov
        have habs : setEqB pa atoms = false := by
          unfold stepSwitch at hs
          cases hsp : a.spec <;> rw [hsp] at hs <;> simpa using hs
        simpa [penultAtoms, List.getLast] using habs
      · rw [if_neg hs] at hcov
        simp [segGo, coveredActions] at hcov
    | cons st2 rest2 =>
      rw [segGo_cons] at hcov
      by_cases hs : stepSwitch a pa atoms (st2 :: rest2) = true
      · rw [if_pos hs] at hcov
        rw [coveredActions_cons] at hcov
        have hcov2 : coveredActions (segGo atoms [] atoms (st2 :: rest2)) =
            List.length ([] : List ActionT) + (st2 :: rest2).length := by
          simp only [List.length_append, List.length_cons, List.length_nil] at hcov ⊢
          omega
        have hres := ih atoms [] atoms (List.cons_ne_nil st2 rest2) hcov2
        simp only [penultAtoms]
        rw [List.getLast_cons (List.cons_ne_nil st2 rest2)]
        exact hres
      · rw [if_neg hs] at hcov
        have hres := ih ci (ca ++ [a]) atoms (List.cons_ne_nil st2 rest2) (by
          simp only [List.length_append, List.length_cons, List.length_nil] at hcov ⊢
          omega)
        simp only [penultAtoms]
        rw [List.getLast_cons (List.cons_ne_nil st2 rest2)]
        exact hres

/-- C3: segment_trajectory always discards the trailing in-progress segment —
when the returned segments cover every action (the only way a returned
segment's final boundary can be the trajectory's last abstraction), the last
abstraction differs from the one before it, i.e. the boundary coincides with
an observed symbolic change; and an unknown-option trajectory whose
abstraction never changes yields the empty segment list. -/
theorem segment_trajectory_drops_trailing :
    (∀ (init : List GAtom) (steps : List (ActionT × List GAtom)) (h : steps ≠ []),
      coveredActions (segment_trajectory init steps) = steps.length →
      setEqB (penultAtoms init steps) ((steps.getLast h).2) = false) ∧
    (∀ (init : List GAtom) (steps : List (ActionT × List GAtom)),
      (∀ st ∈ steps, (st.1).spec = none) → (∀ st ∈ steps, st.2 = init) →
      segment_trajectory init steps = []) := by
  constructor
  · intro init steps h hcov
    exact segGo_cov_last steps init [] init h (by simpa using hcov)
  · intro init steps h1 h2
    exact segGo_unknown_const steps init [] init h1 h2

/-- Witness for C3: the unknown-option 5-action trajectory whose abstraction
jumps only at the last step is fully covered, and indeed its last two
abstractions differ; the abstraction-constant unknown-option trajectory
yields no segments. -/
theorem segment_trajectory_drops_trailing_witness :
    coveredActions (segment_trajectory atoms0 unkSteps5) = unkSteps5.length ∧
    setEqB (penultAtoms atoms0 unkSteps5)
      ((unkSteps5.getLast (by decide)).2) = false ∧
    (∀ st ∈ unkSteps4, (st.1).spec = none) ∧
    (∀ st ∈ unkSteps4, st.2 = atoms0) ∧
    segment_trajectory atoms0 unkSteps4 = [] := by
  refine ⟨by decide, ?_, by decide, by decide, ?_⟩
  · exact segment_trajectory_drops_trailing.1 atoms0 unkSteps5 (by decide) (by decide)
  · exact segment_trajectory_drops_trailing.2 atoms0 unkSteps4 (by decide) (by decide)

/-- The symbolic content of one trajectory step: the option identity and
object arguments of its action (continuous parameter stripped) and the
abstraction it reaches. -/
def stripStep (st : ActionT × List GAtom) : Option (String × List PObj) × List GAtom :=
  (stripAct st.1, st.2)

theorem stepSwitch_strip (a1 a2 : ActionT) (pa atoms : List GAtom)
    (rest1 rest2 : List (ActionT × List GAtom))
    (ha : stripAct a1 = stripAct a2)
    (hr : rest1.map stripStep = rest2.map stripStep) :
    stepSwitch a1 pa atoms rest1 = stepSwitch a2 pa atoms rest2 := by
  unfold stepSwitch
  congr 1
  cases hsp1 : a1.spec with
  | none =>
    have hsp2 : a2.spec = none := by
      unfold stripAct at ha
      rw [hsp1] at ha
      cases hx : a2.spec with
      | none => rfl
      | some sp2 => rw [hx] at ha; simp at ha
    rw [hsp2]
  | some sp1 =>
    cases hsp2 : a2.spec with
    | none =>
      unfold stripAct at ha
      rw [hsp1, hsp2] at ha
      simp at ha
    | some sp2 =>
      have hcomp : sp1.name = sp2.name ∧ sp1.args = sp2.args := by
        unfold stripAct at ha
        rw [hsp1, hsp2] at ha
        simpa using ha
      cases rest1 with
      | nil =>
        cases rest2 with
        | nil => rfl
        | cons b2 r2 => simp at hr
      | cons b1 r1 =>
        cases rest2 with
        | nil => simp at hr
        | cons b2 r2 =>
          obtain ⟨b1a, b1t⟩ := b1
          obtain ⟨b2a, b2t⟩ := b2
          have hb : stripAct b1a = stripAct b2a := by
            simp only [List.map_cons, stripStep, List.cons_eq_cons,
              Prod.mk.injEq] at hr
            exact hr.1.1
          show (match b1a.spec with
            | some sq => decide (¬(sp1.name = sq.name ∧ sp1.args = sq.args))
            | none => false) =
            (match b2a.spec with
            | some sq => decide (¬(sp2.name = sq.name ∧ sp2.args = sq.args))
            | none => false)
          cases hq1 : b1a.spec with
          | none =>
            cases hq2 : b2a.spec with
            | none => rfl
            | some sq2 =>
              exfalso
              unfold stripAct at hb
              rw [hq1, hq2] at hb
              simp at hb
          | some sq1 =>
            cases hq2 : b2a.spec with
            | none =>
              exfalso
              unfold stripAct at hb
              rw [hq1, hq2] at hb
              simp at hb
            | some sq2 =>
              have hq : sq1.name = sq2.name ∧ sq1.args = sq2.args := by
                unfold stripAct at hb
                rw [hq1, hq2] at hb
                simpa using hb
              show decide (¬(sp1.name = sq1.name ∧ sp1.args = sq1.args)) =
                decide (¬(sp2.name = sq2.name ∧ sp2.args = sq2.args))
              rw [hcomp.1, hcomp.2, hq.1, hq.2]

theorem segGo_strip (steps1 : List (ActionT × List GAtom)) :
    ∀ (steps2 : List (ActionT × List GAtom)) (ci1 ci2 : List GAtom)
      (ca1 ca2 : List ActionT) (pa : List GAtom),
      steps1.map stripStep = steps2.map stripStep →
      ca1.length = ca2.length →
      (segGo ci1 ca1 pa steps1).map (fun s => s.actions.length) =
        (segGo ci2 ca2 pa steps2).map (fun s => s.actions.length) := by
  induction steps1 with
  | nil =>
    intro steps2 ci1 ci2 ca1 ca2 pa hmap _
    have h2 : steps2 = [] := by
      cases steps2 with
      | nil => rfl
      | cons b r => simp at hmap
    rw [h2]
    rfl
  | cons st1 r1 ih =>
    intro steps2 ci1 ci2 ca1 ca2 pa hmap hca
    cases steps2 with
    | nil => simp at hmap
    | cons st2 r2 =>
      obtain ⟨a1, at1⟩ := st1
      obtain ⟨a2, at2⟩ := st2
      simp only [List.map_cons, stripStep, List.cons_eq_cons, Prod.mk.injEq] at hmap
      obtain ⟨⟨hact, hat⟩, htails⟩ := hmap
      subst hat
      rw [segGo_cons, segGo_cons]
      have hsw := stepSwitch_strip a1 a2 pa at1 r1 r2 hact htails
      by_cases hs : stepSwitch a1 pa at1 r1 = true
      · rw [if_pos hs, if_pos (hsw ▸ hs)]
        simp only [List.map_cons]
        congr 1
        · simp [hca]
        · exact ih r2 at1 at1 [] [] at1 htails rfl
      · rw [if_neg hs, if_neg (fun hc => hs (hsw ▸ hc))]
        exact ih r2 ci1 ci2 (ca1 ++ [a1]) (ca2 ++ [a2]) at1 htails (by simp [hca])

/-- C4: segmentation boundaries depend only on the symbolic content of a
trajectory — the abstractions and the option identities and object arguments
— never on the continuous option parameters: two trajectories that agree
after stripping the parameters produce segments of identical action counts.
On the spec's concrete scenarios, the known-option constant-abstraction
trajectory yields exactly two closed segments of 2 and 1 actions (its only
boundaries are option identity or argument changes, despite parameter
changes elsewhere), and the unknown-option abstraction-constant
5-state/4-action trajectory yields no closed segments. -/
theorem segment_trajectory_boundaries :
    (∀ (init : List GAtom) (steps1 steps2 : List (ActionT × List GAtom)),
      steps1.map stripStep = steps2.map stripStep →
      (segment_trajectory init steps1).map (fun s => s.actions.length) =
        (segment_trajectory init steps2).map (fun s => s.actions.length)) ∧
    (segment_trajectory atoms0 knownSteps).map (fun s => s.actions.length) =
      [2, 1] ∧
    segment_trajectory atoms0 unkSteps4 = [] := by
  refine ⟨fun init steps1 steps2 hmap => ?_, by decide, by decide⟩
  exact segGo_strip steps1 steps2 init init [] [] init hmap rfl

/-- Witness for C4: the known-option trajectory and its variant with every
continuous parameter changed have the same stripped content, hence the same
segment action counts — a parameter change alone never creates a boundary. -/
theorem segment_trajectory_boundaries_witness :
    knownSteps.map stripStep = knownStepsAlt.map stripStep ∧
    (segment_trajectory atoms0 knownSteps).map (fun s => s.actions.length) =
      (segment_trajectory atoms0 knownStepsAlt).map (fun s => s.actions.length) := by
  refine ⟨by decide, ?_⟩
  exact segment_trajectory_boundaries.1 atoms0 knownSteps knownStepsAlt (by decide)

theorem mem_liftAtoms (s : Sub) (atoms : List GAtom) (a : LAtom) :
    a ∈ liftAtoms s atoms ↔ ∃ g ∈ atoms, liftedOfGround s g = some a := by
  simp [liftAtoms, mem_dedupFirst, List.mem_filterMap]

theorem precInv_newCluster (seg : Segment) : precInv (newCluster seg) := by
  intro a
  simp [newCluster, memberPre]

theorem precInv_update (c : Cluster) (seg : Segment) (s : Sub) (h : precInv c) :
    precInv (updateCluster c seg s) := by
  intro a
  simp only [updateCluster]
  rw [List.mem_filter]
  constructor
  · rintro ⟨hpre, hmem⟩ m hm
    rcases List.mem_append.mp hm with hm1 | hm2
    · exact (h a).mp hpre m hm1
    · rcases List.mem_singleton.mp hm2 with rfl
      exact (memB_iff a _).mp hmem
  · intro hall
    refine ⟨(h a).mpr (fun m hm => hall m (List.mem_append_left _ hm)), ?_⟩
    exact (memB_iff a _).mpr
      (hall (seg, s) (List.mem_append_right _ (List.mem_singleton.mpr rfl)))

theorem tryAdd_mem (seg : Segment) :
    ∀ (cls : List Cluster) (cls2 : List Cluster), tryAdd cls seg = some cls2 →
      ∀ c2 ∈ cls2, c2 ∈ cls ∨ ∃ c s, c ∈ cls ∧ c2 = updateCluster c seg s := by
  intro cls
  induction cls with
  | nil => intro cls2 h; simp [tryAdd] at h
  | cons c cs ih =>
    intro cls2 h c2 hc2
    simp only [tryAdd] at h
    split at h
    · rename_i s heq
      rw [Option.some_inj] at h
      subst h
      rcases List.mem_cons.mp hc2 with rfl | htail
      · exact Or.inr ⟨c, s, List.mem_cons_self c cs, rfl⟩
      · exact Or.inl (List.mem_cons_of_mem c htail)
    · rcases Option.map_eq_some'.mp h with ⟨cs2, hcs2, rfl⟩
      rcases List.mem_cons.mp hc2 with rfl | htail
      · exact Or.inl (List.mem_cons_self c2 cs)
      · rcases ih cs2 hcs2 c2 htail with hold | ⟨c3, s3, hc3, rfl⟩
        · exact Or.inl (List.mem_cons_of_mem c hold)
        · exact Or.inr ⟨c3, s3, List.mem_cons_of_mem c hc3, rfl⟩

theorem addSegment_precInv (cls : List Cluster) (seg : Segment)
    (h : ∀ c ∈ cls, precInv c) : ∀ c ∈ addSegment cls seg, precInv c := by
  intro c2 hc2
  unfold addSegment at hc2
  cases ht : tryAdd cls seg with
  | none =>
    rw [ht] at hc2
    rcases List.mem_append.mp hc2 with hm | hm
    · exact h c2 hm
    · rcases List.mem_singleton.mp hm with rfl
      exact precInv_newCluster seg
  | some cls2 =>
    rw [ht] at hc2
    rcases tryAdd_mem seg cls cls2 ht c2 hc2 with hold | ⟨c, s, hcmem, rfl⟩
    · exact h c2 hold
    · exact precInv_update c seg s (h c hcmem)

theorem learnClusters_precInv (segs : List Segment) :
    ∀ cls : List Cluster, (∀ c ∈ cls, precInv c) →
      ∀ c ∈ List.foldl addSegment cls segs, precInv c := by
  induction segs with
  | nil => intro cls h; exact h
  | cons seg rest ih =>
    intro cls h
    exact ih (addSegment cls seg) (addSegment_precInv cls seg h)

/-- C2: at every point of the induction loop — i.e. after processing any
segment list — every cluster's precondition set is exactly the intersection,
under the recorded member bindings, of the lifted pre-state atoms of all its
member segments (each restricted to the atoms expressible over the binding's
domain, hence over the cluster's parameters); adding a member only shrinks
the precondition set; and every member of an emitted operator's cluster has
a pre-state satisfying all of the operator's preconditions under its
recorded binding. -/
theorem preconditions_intersection_invariant :
    (∀ (segs : List Segment) (c : Cluster), c ∈ learnClusters segs → precInv c) ∧
    (∀ (c : Cluster) (seg : Segment) (s : Sub) (a : LAtom),
      a ∈ (updateCluster c seg s).pre → a ∈ c.pre) ∧
    (∀ (segs : List Segment) (minData : Nat) (op : STRIPSOperator),
      op ∈ learn_strips_operators segs minData →
      ∃ c ∈ learnClusters segs, op = clusterToOp c ∧
        ∀ m ∈ c.members, ∀ a ∈ c.pre, a ∈ memberPre m) := by
  have hmain : ∀ (segs : List Segment) (c : Cluster),
      c ∈ learnClusters segs → precInv c :=
    fun segs => learnClusters_precInv segs [] (by simp)
  refine ⟨hmain, fun c seg s a ha => ?_, fun segs minData op hop => ?_⟩
  · simp only [updateCluster] at ha
    exact (List.mem_filter.mp ha).1
  · obtain ⟨c, hcf, hco⟩ := List.mem_map.mp hop
    have hc : c ∈ learnClusters segs := (List.mem_filter.mp hcf).1
    exact ⟨c, hc, hco.symm, fun m hm a ha => (hmain segs c hc a).mp ha m hm⟩

/-- Witness for C2: the invariant instantiated on the cluster induced from
the single unknown-option test segment. -/
theorem preconditions_intersection_invariant_witness :
    ((learnClusters [segU]).getD 0 ⟨[], [], [], [], none, []⟩) ∈
      learnClusters [segU] ∧
    precInv ((learnClusters [segU]).getD 0 ⟨[], [], [], [], none, []⟩) := by
  refine ⟨by decide, ?_⟩
  exact preconditions_intersection_invariant.1 [segU] _ (by decide)

/-- C1: unification succeeds only when one single consistent binding jointly
carries the lifted add-effects onto the ground add-effects, the lifted
delete-effects onto the ground delete-effects, and the lifted routine
arguments onto the ground routine arguments positionally; whenever each of
the three parts is separately satisfiable by some candidate binding but no
single candidate satisfies all three jointly, the result is (false, none). -/
theorem unify_effects_and_options_joint (gAdd : List GAtom) (lAdd : List LAtom)
    (gDel : List GAtom) (lDel : List LAtom) (gOptName lOptName : Option String)
    (gArgs : List PObj) (lArgs : List PVar) :
    (∀ s, unify_effects_and_options gAdd lAdd gDel lDel gOptName lOptName
        gArgs lArgs = (true, some s) →
      checkAtoms s gAdd lAdd = true ∧ checkAtoms s gDel lDel = true ∧
        checkArgs s gArgs lArgs = true) ∧
    ((∃ s ∈ injAssigns (objsIn gAdd gDel gArgs) (varsIn lAdd lDel lArgs),
        checkAtoms s gAdd lAdd = true) →
     (∃ s ∈ injAssigns (objsIn gAdd gDel gArgs) (varsIn lAdd lDel lArgs),
        checkAtoms s gDel lDel = true) →
     (∃ s ∈ injAssigns (objsIn gAdd gDel gArgs) (varsIn lAdd lDel lArgs),
        checkArgs s gArgs lArgs = true) →
     (∀ s ∈ injAssigns (objsIn gAdd gDel gArgs) (varsIn lAdd lDel lArgs),
        checkJoint gAdd lAdd gDel lDel gArgs lArgs s = false) →
     unify_effects_and_options gAdd lAdd gDel lDel gOptName lOptName
       gArgs lArgs = (false, none)) := by
  constructor
  · intro s h
    unfold unify_effects_and_options at h
    by_cases hopt : gOptName = lOptName
    · rw [if_pos hopt] at h
      cases hfind : (injAssigns (objsIn gAdd gDel gArgs)
          (varsIn lAdd lDel lArgs)).find?
          (checkJoint gAdd lAdd gDel lDel gArgs lArgs) with
      | none => rw [hfind] at h; simp at h
      | some s0 =>
        rw [hfind] at h
        have hs0 : s0 = s := by
          have := congrArg Prod.snd h
          simpa using this
        subst hs0
        have hp := List.find?_some hfind
        unfold checkJoint at hp
        rw [Bool.and_eq_true, Bool.and_eq_true] at hp
        exact ⟨hp.1.1, hp.1.2, hp.2⟩
    · rw [if_neg hopt] at h
      simp at h
  · intro _ _ _ hnone
    unfold unify_effects_and_options
    by_cases hopt : gOptName = lOptName
    · rw [if_pos hopt]
      have hfind : (injAssigns (objsIn gAdd gDel gArgs)
          (varsIn lAdd lDel lArgs)).find?
          (checkJoint gAdd lAdd gDel lDel gArgs lArgs) = none := by
        rw [List.find?_eq_none]
        intro s hs
        rw [hnone s hs]
        exact Bool.false_ne_true
      rw [hfind]
    · rw [if_neg hopt]

/-- Witness for C1 at the test's concrete input: ground add-effect
Pred0(cup1, cup2) with routine arguments (cup0, cup1) against lifted
add-effect Pred0(y, z) with routine arguments (w, x) — the add-effects, the
(empty) delete-effects and the arguments are each separately satisfiable by
some candidate binding, but no single binding satisfies all three jointly,
so unification fails. -/
theorem unify_effects_and_options_joint_witness :
    (∃ s ∈ injAssigns (objsIn gAddW [] [cup0, cup1])
        (varsIn lAddW [] [varW, varX]), checkAtoms s gAddW lAddW = true) ∧
    (∃ s ∈ injAssigns (objsIn gAddW [] [cup0, cup1])
        (varsIn lAddW [] [varW, varX]), checkAtoms s [] [] = true) ∧
    (∃ s ∈ injAssigns (objsIn gAddW [] [cup0, cup1])
        (varsIn lAddW [] [varW, varX]), checkArgs s [cup0, cup1] [varW, varX] = true) ∧
    (∀ s ∈ injAssigns (objsIn gAddW [] [cup0, cup1])
        (varsIn lAddW [] [varW, varX]),
      checkJoint gAddW lAddW [] [] [cup0, cup1] [varW, varX] s = false) ∧
    unify_effects_and_options gAddW lAddW [] [] (some "dummy0") (some "dummy0")
      [cup0, cup1] [varW, varX] = (false, none) := by
  have h1 : ∃ s ∈ injAssigns (objsIn gAddW [] [cup0, cup1])
      (varsIn lAddW [] [varW, varX]), checkAtoms s gAddW lAddW = true := by decide
  have h2 : ∃ s ∈ injAssigns (objsIn gAddW [] [cup0, cup1])
      (varsIn lAddW [] [varW, varX]), checkAtoms s [] [] = true := by decide
  have h3 : ∃ s ∈ injAssigns (objsIn gAddW [] [cup0, cup1])
      (varsIn lAddW [] [varW, varX]),
      checkArgs s [cup0, cup1] [varW, varX] = true := by decide
  have h4 : ∀ s ∈ injAssigns (objsIn gAddW [] [cup0, cup1])
      (varsIn lAddW [] [varW, varX]),
      checkJoint gAddW lAddW [] [] [cup0, cup1] [varW, varX] s = false := by decide
  exact ⟨h1, h2, h3, h4,
    (unify_effects_and_options_joint gAddW lAddW [] [] (some "dummy0")
      (some "dummy0") [cup0, cup1] [varW, varX]).2 h1 h2 h3 h4⟩

/-- Counterexample for C7: the two path-shaped segments segF and segM unify
into one cluster in either presentation order, but the first-fit search picks
bindings that depend on the order; the two orders produce final operators
whose precondition sets have different sizes (one atom versus none), so the
final operator sets are not equal up to variable renumbering. -/
theorem order_permutation_counterexample :
    opsMatch (learn_strips_operators [segF, segM] 0)
      (learn_strips_operators [segM, segF] 0) = false ∧
    (learn_strips_operators [segF, segM] 0).map (fun o => o.pre.length) = [1] ∧
    (learn_strips_operators [segM, segF] 0).map (fun o => o.pre.length) = [0] := by
  refine ⟨?_, ?_, ?_⟩ <;> decide

/-! Lemmas about association-list lookups and mapThrough, used for the
symmetry analysis of unification. -/

theorem alistLookup_mem [DecidableEq α] {l : List (α × β)} {a : α} {b : β}
    (h : alistLookup l a = some b) : (a, b) ∈ l := by
  unfold alistLookup at h
  rcases Option.map_eq_some'.mp h with ⟨p, hfind, hpb⟩
  have hpa : p.1 = a := by simpa using List.find?_some hfind
  have hmem := List.mem_of_find?_eq_some hfind
  obtain ⟨p1, p2⟩ := p
  simp only at hpa hpb
  rw [← hpa, ← hpb]
  exact hmem

theorem alistRevLookup_mem [DecidableEq β] {l : List (α × β)} {a : α} {b : β}
    (h : alistRevLookup l b = some a) : (a, b) ∈ l := by
  unfold alistRevLookup at h
  rcases Option.map_eq_some'.mp h with ⟨p, hfind, hpa⟩
  have hpb : p.2 = b := by simpa using List.find?_some hfind
  have hmem := List.mem_of_find?_eq_some hfind
  obtain ⟨p1, p2⟩ := p
  simp only at hpa hpb
  rw [← hpa, ← hpb]
  exact hmem

theorem alistLookup_of_mem [DecidableEq α] {l : List (α × β)} {a : α} {b : β}
    (hnd : (l.map Prod.fst).Nodup) (h : (a, b) ∈ l) : alistLookup l a = some b := by
  induction l with
  | nil => simp at h
  | cons p ps ih =>
    obtain ⟨p1, p2⟩ := p
    simp only [List.map_cons, List.nodup_cons] at hnd
    by_cases hpa : p1 = a
    · subst hpa
      have hb : p2 = b := by
        rcases List.mem_cons.mp h with heq | hmem
        · exact (Prod.mk.injEq _ _ _ _ ▸ heq.symm).2
        · exact absurd (List.mem_map.mpr ⟨(p1, b), hmem, rfl⟩) hnd.1
      subst hb
      simp [alistLookup]
    · have hmem : (a, b) ∈ ps := by
        rcases List.mem_cons.mp h with heq | hmem
        · exact absurd (congrArg Prod.fst heq).symm hpa
        · exact hmem
      have := ih hnd.2 hmem
      unfold alistLookup at this ⊢
      rw [List.find?_cons_of_neg]
      · exact this
      · simp [hpa]

theorem alistRevLookup_of_mem [DecidableEq β] {l : List (α × β)} {a : α} {b : β}
    (hnd : (l.map Prod.snd).Nodup) (h : (a, b) ∈ l) : alistRevLookup l b = some a := by
  induction l with
  | nil => simp at h
  | cons p ps ih =>
    obtain ⟨p1, p2⟩ := p
    simp only [List.map_cons, List.nodup_cons] at hnd
    by_cases hpb : p2 = b
    · subst hpb
      have ha : p1 = a := by
        rcases List.mem_cons.mp h with heq | hmem
        · exact (Prod.mk.injEq _ _ _ _ ▸ heq.symm).1
        · exact absurd (List.mem_map.mpr ⟨(a, p2), hmem, rfl⟩) hnd.1
      subst ha
      simp [alistRevLookup]
    · have hmem : (a, b) ∈ ps := by
        rcases List.mem_cons.mp h with heq | hmem
        · exact absurd (congrArg Prod.snd heq).symm hpb
        · exact hmem
      have := ih hnd.2 hmem
      unfold alistRevLookup at this ⊢
      rw [List.find?_cons_of_neg]
      · exact this
      · simp [hpb]

theorem mem_fst_exists {l : List (α × β)} {a : α} (h : a ∈ l.map Prod.fst) :
    ∃ b, (a, b) ∈ l := by
  rcases List.mem_map.mp h with ⟨p, hp, hpa⟩
  exact ⟨p.2, by rw [← hpa]; exact hp⟩

theorem mem_snd_exists {l : List (α × β)} {b : β} (h : b ∈ l.map Prod.snd) :
    ∃ a, (a, b) ∈ l := by
  rcases List.mem_map.mp h with ⟨p, hp, hpb⟩
  exact ⟨p.1, by rw [← hpb]; exact hp⟩

theorem alist_fst_inj {l : List (α × β)} {a : α} {b1 b2 : β}
    (hnd : (l.map Prod.fst).Nodup) (h1 : (a, b1) ∈ l) (h2 : (a, b2) ∈ l) :
    b1 = b2 := by
  induction l with
  | nil => simp at h1
  | cons p ps ih =>
    simp only [List.map_cons, List.nodup_cons] at hnd
    rcases List.mem_cons.mp h1 with he1 | hm1 <;>
      rcases List.mem_cons.mp h2 with he2 | hm2
    · rw [← he1] at he2; exact (Prod.mk.injEq _ _ _ _ ▸ he2).2.symm
    · exact absurd (List.mem_map.mpr ⟨(a, b2), hm2, by rw [← he1]⟩) hnd.1
    · exact absurd (List.mem_map.mpr ⟨(a, b1), hm1, by rw [← he2]⟩) hnd.1
    · exact ih hnd.2 hm1 hm2

theorem alist_snd_inj {l : List (α × β)} {a1 a2 : α} {b : β}
    (hnd : (l.map Prod.snd).Nodup) (h1 : (a1, b) ∈ l) (h2 : (a2, b) ∈ l) :
    a1 = a2 := by
  induction l with
  | nil => simp at h1
  | cons p ps ih =>
    simp only [List.map_cons, List.nodup_cons] at hnd
    rcases List.mem_cons.mp h1 with he1 | hm1 <;>
      rcases List.mem_cons.mp h2 with he2 | hm2
    · rw [← he1] at he2; exact (Prod.mk.injEq _ _ _ _ ▸ he2).1.symm
    · exact absurd (List.mem_map.mpr ⟨(a2, b), hm2, by rw [← he1]⟩) hnd.1
    · exact absurd (List.mem_map.mpr ⟨(a1, b), hm1, by rw [← he2]⟩) hnd.1
    · exact ih hnd.2 hm1 hm2

theorem alistLookup_isSome [DecidableEq α] {l : List (α × β)} {a : α}
    (h : a ∈ l.map Prod.fst) : ∃ b, alistLookup l a = some b := by
  rcases mem_fst_exists h with ⟨b, hb⟩
  induction l with
  | nil => simp at hb
  | cons p ps ih =>
    by_cases hpa : p.1 = a
    · exact ⟨p.2, by simp [alistLookup, List.find?_cons_of_pos, hpa]⟩
    · rcases List.mem_cons.mp hb with he | hm
      · exact absurd (congrArg Prod.fst he).symm hpa
      · rcases ih (List.mem_map.mpr ⟨(a, b), hm, rfl⟩) hm with ⟨b2, hb2⟩
        refine ⟨b2, ?_⟩
        unfold alistLookup at hb2 ⊢
        rw [List.find?_cons_of_neg]
        · exact hb2
        · simp [hpa]

theorem alistLookup_map_self [DecidableEq α] (l : List α) (f : α → β) (a : α) :
    alistLookup (l.map (fun x => (x, f x))) a =
      if a ∈ l then some (f a) else none := by
  induction l with
  | nil => simp [alistLookup]
  | cons x xs ih =>
    by_cases hxa : x = a
    · subst hxa
      simp [alistLookup, List.find?_cons_of_pos]
    · unfold alistLookup at ih ⊢
      rw [List.map_cons, List.find?_cons_of_neg]
      · rw [ih]
        have hiff : (a ∈ xs) ↔ (a ∈ x :: xs) := by
          rw [List.mem_cons]
          exact (or_iff_right (fun h : a = x => hxa h.symm)).symm
        exact if_congr hiff rfl rfl
      · simp [hxa]

theorem mapThrough_isSome [DecidableEq α] {l : List (α × β)} {as : List α}
    (h : ∀ a ∈ as, ∃ b, alistLookup l a = some b) :
    ∃ bs, mapThrough l as = some bs := by
  induction as with
  | nil => exact ⟨[], rfl⟩
  | cons a as ih =>
    rcases h a (List.mem_cons_self a as) with ⟨b, hb⟩
    rcases ih (fun a2 ha2 => h a2 (List.mem_cons_of_mem a ha2)) with ⟨bs, hbs⟩
    exact ⟨b :: bs, by simp [mapThrough, hb, hbs]⟩

theorem mapThrough_sound [DecidableEq α] {l : List (α × β)} :
    ∀ {as : List α} {bs : List β}, mapThrough l as = some bs →
      ∀ b ∈ bs, ∃ a ∈ as, alistLookup l a = some b := by
  intro as
  induction as with
  | nil => intro bs h b hb; simp [mapThrough] at h; subst h; simp at hb
  | cons a as ih =>
    intro bs h b hb
    unfold mapThrough at h
    cases h1 : alistLookup l a with
    | none => rw [h1] at h; simp at h
    | some b1 =>
      rw [h1] at h
      cases h2 : mapThrough l as with
      | none => rw [h2] at h; simp at h
      | some bs1 =>
        rw [h2] at h
        simp only [Option.some_inj] at h
        subst h
        rcases List.mem_cons.mp hb with rfl | hm
        · exact ⟨a, List.mem_cons_self a as, h1⟩
        · rcases ih h2 b hm with ⟨a2, ha2, hl2⟩
          exact ⟨a2, List.mem_cons_of_mem a ha2, hl2⟩

theorem mapThrough_mem [DecidableEq α] {l : List (α × β)} :
    ∀ {as : List α} {bs : List β} {a : α} {b : β}, mapThrough l as = some bs →
      a ∈ as → alistLookup l a = some b → b ∈ bs := by
  intro as
  induction as with
  | nil => intro bs a b _ ha; simp at ha
  | cons a1 as ih =>
    intro bs a b h ha hl
    unfold mapThrough at h
    cases h1 : alistLookup l a1 with
    | none => rw [h1] at h; simp at h
    | some b1 =>
      rw [h1] at h
      cases h2 : mapThrough l as with
      | none => rw [h2] at h; simp at h
      | some bs1 =>
        rw [h2] at h
        simp only [Option.some_inj] at h
        subst h
        rcases List.mem_cons.mp ha with rfl | hm
        · rw [h1] at hl
          exact List.mem_cons.mpr (Or.inl (Option.some_inj.mp hl).symm)
        · exact List.mem_cons.mpr (Or.inr (ih h2 hm hl))

theorem mapThroughRev_forall [DecidableEq β] {l : List (α × β)} :
    ∀ {bs : List β} {as : List α}, mapThroughRev l bs = some as →
      ∀ b ∈ bs, ∃ a, alistRevLookup l b = some a := by
  intro bs
  induction bs with
  | nil => intro as _ b hb; simp at hb
  | cons b1 bs ih =>
    intro as h b hb
    unfold mapThroughRev at h
    cases h1 : alistRevLookup l b1 with
    | none => rw [h1] at h; simp at h
    | some a1 =>
      rw [h1] at h
      cases h2 : mapThroughRev l bs with
      | none => rw [h2] at h; simp at h
      | some as1 =>
        rcases List.mem_cons.mp hb with rfl | hm
        · exact ⟨a1, h1⟩
        · exact ih h2 b hm

theorem injAssigns_sound :
    ∀ (objs : List PObj) (vs : List PVar) (σ : Sub), vs.Nodup →
      σ ∈ injAssigns objs vs →
      σ.map Prod.fst = objs ∧ (σ.map Prod.snd).Nodup ∧
      ∀ p ∈ σ, p.2 ∈ vs ∧ p.2.ty = p.1.ty := by
  intro objs
  induction objs with
  | nil =>
    intro vs σ _ h
    simp only [injAssigns, List.mem_singleton] at h
    subst h
    simp
  | cons o os ih =>
    intro vs σ hvs h
    simp only [injAssigns, List.mem_flatMap, List.mem_map, List.mem_filter,
      decide_eq_true_eq] at h
    obtain ⟨v, ⟨hv, hvty⟩, σ2, hσ2, rfl⟩ := h
    obtain ⟨hfst, hsnd, hent⟩ := ih (vs.erase v) σ2 (hvs.erase v) hσ2
    refine ⟨by simp [hfst], ?_, ?_⟩
    · simp only [List.map_cons]
      refine List.nodup_cons.mpr ⟨fun hc => ?_, hsnd⟩
      rcases mem_snd_exists hc with ⟨o2, ho2⟩
      have := (hent (o2, v) ho2).1
      exact ((List.Nodup.mem_erase_iff hvs).mp this).1 rfl
    · intro p hp
      rcases List.mem_cons.mp hp with rfl | hm
      · exact ⟨hv, hvty⟩
      · exact ⟨List.mem_of_mem_erase (hent p hm).1, (hent p hm).2⟩

theorem injAssigns_complete :
    ∀ (objs : List PObj) (vs : List PVar) (f : PObj → PVar), objs.Nodup →
      (∀ o ∈ objs, f o ∈ vs) → (∀ o ∈ objs, (f o).ty = o.ty) →
      (∀ o1 ∈ objs, ∀ o2 ∈ objs, f o1 = f o2 → o1 = o2) →
      objs.map (fun o => (o, f o)) ∈ injAssigns objs vs := by
  intro objs
  induction objs with
  | nil => intro vs f _ _ _ _; simp [injAssigns]
  | cons o os ih =>
    intro vs f hnd hmem hty hinj
    simp only [injAssigns, List.mem_flatMap, List.mem_map, List.mem_filter,
      decide_eq_true_eq, List.map_cons]
    refine ⟨f o, ⟨hmem o (List.mem_cons_self o os),
      hty o (List.mem_cons_self o os)⟩, os.map (fun o2 => (o2, f o2)), ?_, rfl⟩
    refine ih (vs.erase (f o)) f (List.nodup_cons.mp hnd).2 (fun o2 ho2 => ?_)
      (fun o2 ho2 => hty o2 (List.mem_cons_of_mem o ho2))
      (fun o1 h1 o2 h2 he => hinj o1 (List.mem_cons_of_mem o h1) o2
        (List.mem_cons_of_mem o h2) he)
    refine (List.mem_erase_of_ne (fun hc => ?_)).mpr
      (hmem o2 (List.mem_cons_of_mem o ho2))
    have : o2 = o := hinj o2 (List.mem_cons_of_mem o ho2) o
      (List.mem_cons_self o os) hc
    exact (List.nodup_cons.mp hnd).1 (this ▸ ho2)

theorem segObjs_nodup (seg : Segment) : (segObjs seg).Nodup :=
  nodup_dedupFirst _

theorem segParams_map_id (seg : Segment) :
    (segParams seg).map PVar.id = List.range (segObjs seg).length := by
  unfold segParams
  rw [List.map_map]
  have : (PVar.id ∘ fun p : Nat × PObj => (⟨p.1, p.2.ty⟩ : PVar)) =
      Prod.fst := rfl
  rw [this, List.enum_map_fst]

theorem segParams_nodup (seg : Segment) : (segParams seg).Nodup :=
  List.Nodup.of_map PVar.id
    (by rw [segParams_map_id]; exact List.nodup_range _)

theorem segParams_length (seg : Segment) :
    (segParams seg).length = (segObjs seg).length := by
  simp [segParams]

theorem segSub0_fst (seg : Segment) :
    (segSub0 seg).map Prod.fst = segObjs seg := by
  unfold segSub0
  exact List.map_fst_zip _ _ (by rw [segParams_length])

theorem segSub0_snd (seg : Segment) :
    (segSub0 seg).map Prod.snd = segParams seg := by
  unfold segSub0
  exact List.map_snd_zip _ _ (by rw [segParams_length])

theorem zip_enumFrom_ty :
    ∀ (l : List PObj) (k : Nat) (p : PObj × PVar),
      p ∈ l.zip ((l.enumFrom k).map (fun q => (⟨q.1, q.2.ty⟩ : PVar))) →
      p.2.ty = p.1.ty := by
  intro l
  induction l with
  | nil => intro k p hp; simp at hp
  | cons o os ih =>
    intro k p hp
    simp only [List.enumFrom, List.map_cons, List.zip_cons_cons] at hp
    rcases List.mem_cons.mp hp with rfl | hm
    · rfl
    · exact ih (k + 1) p hm

theorem segSub0_ty (seg : Segment) :
    ∀ p ∈ segSub0 seg, p.2.ty = p.1.ty := by
  intro p hp
  exact zip_enumFrom_ty (segObjs seg) 0 p hp

theorem mem_segObjs_add {seg : Segment} {g : GAtom} {o : PObj}
    (hg : g ∈ addEffects seg) (ho : o ∈ g.args) : o ∈ segObjs seg := by
  unfold segObjs objsIn
  rw [mem_dedupFirst]
  exact List.mem_append_left _ (List.mem_append_left _
    (List.mem_flatMap.mpr ⟨g, hg, ho⟩))

theorem mem_segObjs_del {seg : Segment} {g : GAtom} {o : PObj}
    (hg : g ∈ delEffects seg) (ho : o ∈ g.args) : o ∈ segObjs seg := by
  unfold segObjs objsIn
  rw [mem_dedupFirst]
  exact List.mem_append_left _ (List.mem_append_right _
    (List.mem_flatMap.mpr ⟨g, hg, ho⟩))

theorem mem_segObjs_args {seg : Segment} {o : PObj}
    (ho : o ∈ segOptArgs seg) : o ∈ segObjs seg := by
  unfold segObjs objsIn
  rw [mem_dedupFirst]
  exact List.mem_append_right _ ho

theorem segSub0_lookup_isSome {seg : Segment} {o : PObj} (h : o ∈ segObjs seg) :
    ∃ v, alistLookup (segSub0 seg) o = some v :=
  alistLookup_isSome (by rw [segSub0_fst]; exact h)

theorem liftedOfGround_inv {s : Sub} {g : GAtom} {l : LAtom}
    (h : liftedOfGround s g = some l) :
    l.pred = g.pred ∧ mapThrough s g.args = some l.args := by
  unfold liftedOfGround at h
  rcases Option.map_eq_some'.mp h with ⟨vs, hvs, hl⟩
  rw [← hl]
  exact ⟨rfl, hvs⟩

theorem groundOfLifted_inv {s : Sub} {l : LAtom} {g : GAtom}
    (h : groundOfLifted s l = some g) :
    g.pred = l.pred ∧ mapThroughRev s l.args = some g.args := by
  unfold groundOfLifted at h
  rcases Option.map_eq_some'.mp h with ⟨os, hos, hg⟩
  rw [← hg]
  exact ⟨rfl, hos⟩

theorem liftedOfGround_total {seg : Segment} {g : GAtom}
    (hargs : ∀ o ∈ g.args, o ∈ segObjs seg) :
    ∃ l, liftedOfGround (segSub0 seg) g = some l := by
  rcases mapThrough_isSome (fun o ho => segSub0_lookup_isSome (hargs o ho)) with
    ⟨vs, hvs⟩
  exact ⟨⟨g.pred, vs⟩, by simp [liftedOfGround, hvs]⟩

theorem groundList_isSome {s : Sub} :
    ∀ {ls : List LAtom}, (∀ l ∈ ls, ∃ g, groundOfLifted s l = some g) →
      ∃ gs, groundList s ls = some gs := by
  intro ls
  induction ls with
  | nil => intro _; exact ⟨[], rfl⟩
  | cons l ls ih =>
    intro h
    rcases h l (List.mem_cons_self l ls) with ⟨g, hg⟩
    rcases ih (fun l2 hl2 => h l2 (List.mem_cons_of_mem l hl2)) with ⟨gs, hgs⟩
    exact ⟨g :: gs, by simp [groundList, hg, hgs]⟩

theorem groundList_sound {s : Sub} :
    ∀ {ls : List LAtom} {gs : List GAtom}, groundList s ls = some gs →
      (∀ g ∈ gs, ∃ l ∈ ls, groundOfLifted s l = some g) ∧
      (∀ l ∈ ls, ∃ g ∈ gs, groundOfLifted s l = some g) := by
  intro ls
  induction ls with
  | nil =>
    intro gs h
    simp only [groundList, Option.some_inj] at h
    subst h
    exact ⟨by simp, by simp⟩
  | cons l ls ih =>
    intro gs h
    unfold groundList at h
    cases h1 : groundOfLifted s l with
    | none => rw [h1] at h; simp at h
    | some g1 =>
      rw [h1] at h
      cases h2 : groundList s ls with
      | none => rw [h2] at h; simp at h
      | some gs1 =>
        rw [h2] at h
        simp only [Option.some_inj] at h
        subst h
        obtain ⟨hs1, hs2⟩ := ih h2
        constructor
        · intro g hg
          rcases List.mem_cons.mp hg with rfl | hm
          · exact ⟨l, List.mem_cons_self l ls, h1⟩
          · rcases hs1 g hm with ⟨l2, hl2, he⟩
            exact ⟨l2, List.mem_cons_of_mem l hl2, he⟩
        · intro l2 hl2
          rcases List.mem_cons.mp hl2 with rfl | hm
          · exact ⟨g1, List.mem_cons_self g1 gs1, h1⟩
          · rcases hs2 l2 hm with ⟨g, hg, he⟩
            exact ⟨g, List.mem_cons_of_mem g1 hg, he⟩

theorem checkAtoms_pointwise {s : Sub} {gs : List GAtom} {ls : List LAtom} :
    checkAtoms s gs ls = true ↔
    (∀ l ∈ ls, ∃ g ∈ gs, groundOfLifted s l = some g) ∧
    (∀ g ∈ gs, ∃ l ∈ ls, groundOfLifted s l = some g) := by
  unfold checkAtoms
  cases him : groundList s ls with
  | none =>
    refine iff_of_false (by simp) (fun h => ?_)
    rcases groundList_isSome (fun l hl => (h.1 l hl).imp
      (fun g hg => hg.2)) with ⟨gs2, hgs2⟩
    rw [him] at hgs2
    exact Option.noConfusion hgs2
  | some im =>
    obtain ⟨hs1, hs2⟩ := groundList_sound him
    rw [setEqB_iff]
    constructor
    · intro h
      constructor
      · intro l hl
        rcases hs2 l hl with ⟨g, hg, he⟩
        exact ⟨g, h.1 g hg, he⟩
      · intro g hg
        rcases hs1 g (h.2 g hg) with ⟨l, hl, he⟩
        exact ⟨l, hl, he⟩
    · intro h
      constructor
      · intro x hx
        rcases hs1 x hx with ⟨l, hl, he⟩
        rcases h.1 l hl with ⟨g, hg, he2⟩
        rw [he] at he2
        exact (Option.some_inj.mp he2) ▸ hg
      · intro x hx
        rcases h.2 x hx with ⟨l, hl, he⟩
        rcases hs2 l hl with ⟨g, hg, he2⟩
        rw [he] at he2
        exact (Option.some_inj.mp he2).symm ▸ hg

theorem checkArgs_iff {s : Sub} {gArgs : List PObj} {lArgs : List PVar} :
    checkArgs s gArgs lArgs = true ↔ mapThroughRev s lArgs = some gArgs := by
  unfold checkArgs
  cases h : mapThroughRev s lArgs with
  | none => simp
  | some im => simp

theorem clName_newCluster (seg : Segment) :
    clName (newCluster seg) = segOptName seg := by
  cases h : seg.segOpt <;> simp [clName, newCluster, segOptName, h]

theorem clArgs_newCluster (seg : Segment) :
    clArgs (newCluster seg) = liftArgs (segSub0 seg) (segOptArgs seg) := by
  cases h : seg.segOpt with
  | none => simp [clArgs, newCluster, segOptArgs, liftArgs, mapThrough, h]
  | some pr => simp [clArgs, newCluster, segOptArgs, h]

theorem liftArgs_total (seg : Segment) :
    mapThrough (segSub0 seg) (segOptArgs seg) =
      some (liftArgs (segSub0 seg) (segOptArgs seg)) := by
  rcases mapThrough_isSome (fun o ho => segSub0_lookup_isSome
    (mem_segObjs_args ho)) with ⟨im, him⟩
  rw [him, liftArgs, him]
  rfl

theorem segVar_mem_varsIn (seg : Segment) (o : PObj) (v : PVar)
    (ho : o ∈ segObjs seg) (hv : alistLookup (segSub0 seg) o = some v) :
    v ∈ varsIn (newCluster seg).addE (newCluster seg).delE
      (clArgs (newCluster seg)) := by
  unfold varsIn
  rw [mem_dedupFirst]
  have ho2 := ho
  unfold segObjs objsIn at ho2
  rw [mem_dedupFirst] at ho2
  rcases List.mem_append.mp ho2 with h1 | hargs
  · rcases List.mem_append.mp h1 with hadd | hdel
    · rcases List.mem_flatMap.mp hadd with ⟨g, hg, hog⟩
      obtain ⟨l, hl⟩ := liftedOfGround_total
        (fun o2 ho3 => mem_segObjs_add hg ho3)
      have hvl : v ∈ l.args := mapThrough_mem (liftedOfGround_inv hl).2 hog hv
      have hlm : l ∈ (newCluster seg).addE := by
        show l ∈ liftAtoms (segSub0 seg) (addEffects seg)
        rw [mem_liftAtoms]
        exact ⟨g, hg, hl⟩
      exact List.mem_append_left _ (List.mem_append_left _
        (List.mem_flatMap.mpr ⟨l, hlm, hvl⟩))
    · rcases List.mem_flatMap.mp hdel with ⟨g, hg, hog⟩
      obtain ⟨l, hl⟩ := liftedOfGround_total
        (fun o2 ho3 => mem_segObjs_del hg ho3)
      have hvl : v ∈ l.args := mapThrough_mem (liftedOfGround_inv hl).2 hog hv
      have hlm : l ∈ (newCluster seg).delE := by
        show l ∈ liftAtoms (segSub0 seg) (delEffects seg)
        rw [mem_liftAtoms]
        exact ⟨g, hg, hl⟩
      exact List.mem_append_left _ (List.mem_append_right _
        (List.mem_flatMap.mpr ⟨l, hlm, hvl⟩))
  · have hvl : v ∈ liftArgs (segSub0 seg) (segOptArgs seg) :=
      mapThrough_mem (liftArgs_total seg) hargs hv
    rw [clArgs_newCluster]
    exact List.mem_append_right _ hvl

theorem templVars_sub (seg : Segment) (v : PVar)
    (hv : v ∈ varsIn (newCluster seg).addE (newCluster seg).delE
      (clArgs (newCluster seg))) :
    v ∈ (segSub0 seg).map Prod.snd := by
  unfold varsIn at hv
  rw [mem_dedupFirst] at hv
  have hfromatoms : ∀ (atoms : List GAtom) (l : LAtom),
      l ∈ liftAtoms (segSub0 seg) atoms → v ∈ l.args →
      v ∈ (segSub0 seg).map Prod.snd := by
    intro atoms l hl hvl
    rcases (mem_liftAtoms _ _ _).mp hl with ⟨g, _, hlift⟩
    rcases mapThrough_sound (liftedOfGround_inv hlift).2 v hvl with ⟨a, _, ha⟩
    exact List.mem_map.mpr ⟨(a, v), alistLookup_mem ha, rfl⟩
  rcases List.mem_append.mp hv with h1 | hargs
  · rcases List.mem_append.mp h1 with hadd | hdel
    · rcases List.mem_flatMap.mp hadd with ⟨l, hl, hvl⟩
      exact hfromatoms (addEffects seg) l hl hvl
    · rcases List.mem_flatMap.mp hdel with ⟨l, hl, hvl⟩
      exact hfromatoms (delEffects seg) l hl hvl
  · rw [clArgs_newCluster] at hargs
    have := liftArgs_total seg
    rcases mapThrough_sound this v hargs with ⟨a, _, ha⟩
    exact List.mem_map.mpr ⟨(a, v), alistLookup_mem ha, rfl⟩

theorem unify_succeeds_iff (gAdd : List GAtom) (lAdd : List LAtom)
    (gDel : List GAtom) (lDel : List LAtom) (gOptName lOptName : Option String)
    (gArgs : List PObj) (lArgs : List PVar) :
    (unify_effects_and_options gAdd lAdd gDel lDel gOptName lOptName
      gArgs lArgs).1 = true ↔
    (gOptName = lOptName ∧
      ∃ σ ∈ injAssigns (objsIn gAdd gDel gArgs) (varsIn lAdd lDel lArgs),
        checkJoint gAdd lAdd gDel lDel gArgs lArgs σ = true) := by
  unfold unify_effects_and_options
  by_cases hopt : gOptName = lOptName
  · rw [if_pos hopt]
    cases hfind : (injAssigns (objsIn gAdd gDel gArgs)
        (varsIn lAdd lDel lArgs)).find?
        (checkJoint gAdd lAdd gDel lDel gArgs lArgs) with
    | none =>
      refine iff_of_false (by simp) (fun h => ?_)
      rcases h.2 with ⟨σ, hmem, hchk⟩
      have := List.find?_eq_none.mp hfind σ hmem
      rw [hchk] at this
      exact this rfl
    | some σ =>
      exact iff_of_true rfl ⟨hopt, σ, List.mem_of_find?_eq_some hfind,
        List.find?_some hfind⟩
  · rw [if_neg hopt]
    exact iff_of_false (by simp) (fun h => hopt h.1)

theorem mapThrough_comp [DecidableEq α] [DecidableEq β] {l1 : List (α × β)}
    {l2 : List (γ × β)} {φ : List (α × γ)}
    (hpt : ∀ a m b, alistLookup l1 a = some m → alistRevLookup l2 m = some b →
      alistLookup φ a = some b) :
    ∀ {as : List α} {ms : List β} {bs : List γ},
      mapThrough l1 as = some ms → mapThroughRev l2 ms = some bs →
      mapThrough φ as = some bs := by
  intro as
  induction as with
  | nil =>
    intro ms bs h1 h2
    simp only [mapThrough, Option.some_inj] at h1
    subst h1
    simp only [mapThroughRev, Option.some_inj] at h2
    subst h2
    rfl
  | cons a as ih =>
    intro ms bs h1 h2
    unfold mapThrough at h1
    cases ha : alistLookup l1 a with
    | none => rw [ha] at h1; simp at h1
    | some m =>
      rw [ha] at h1
      cases has : mapThrough l1 as with
      | none => rw [has] at h1; simp at h1
      | some ms1 =>
        rw [has] at h1
        simp only [Option.some_inj] at h1
        subst h1
        unfold mapThroughRev at h2
        cases hm : alistRevLookup l2 m with
        | none => rw [hm] at h2; simp at h2
        | some b =>
          rw [hm] at h2
          cases hms : mapThroughRev l2 ms1 with
          | none => rw [hms] at h2; simp at h2
          | some bs1 =>
            rw [hms] at h2
            simp only [Option.some_inj] at h2
            subst h2
            have hφa := hpt a m b ha hm
            have hrec := ih has hms
            simp [mapThrough, hφa, hrec]

theorem mapThroughRev_comp [DecidableEq α] [DecidableEq β] [DecidableEq γ]
    {φ : List (α × γ)} {l2 : List (γ × β)} {τ : List (α × β)}
    (hpt : ∀ a m v, alistLookup φ a = some m → alistLookup l2 m = some v →
      alistRevLookup τ v = some a) :
    ∀ {as : List α} {ms : List γ} {vs : List β},
      mapThrough φ as = some ms → mapThrough l2 ms = some vs →
      mapThroughRev τ vs = some as := by
  intro as
  induction as with
  | nil =>
    intro ms vs h1 h2
    simp only [mapThrough, Option.some_inj] at h1
    subst h1
    simp only [mapThrough, Option.some_inj] at h2
    subst h2
    rfl
  | cons a as ih =>
    intro ms vs h1 h2
    unfold mapThrough at h1
    cases ha : alistLookup φ a with
    | none => rw [ha] at h1; simp at h1
    | some m =>
      rw [ha] at h1
      cases has : mapThrough φ as with
      | none => rw [has] at h1; simp at h1
      | some ms1 =>
        rw [has] at h1
        simp only [Option.some_inj] at h1
        subst h1
        unfold mapThrough at h2
        cases hm : alistLookup l2 m with
        | none => rw [hm] at h2; simp at h2
        | some v =>
          rw [hm] at h2
          cases hms : mapThrough l2 ms1 with
          | none => rw [hms] at h2; simp at h2
          | some vs1 =>
            rw [hms] at h2
            simp only [Option.some_inj] at h2
            subst h2
            have hτv := hpt a m v ha hm
            have hrec := ih has hms
            simp [mapThroughRev, hτv, hrec]

theorem unifyWC_to_iso (t s : Segment)
    (h : (unifyWithCluster t (newCluster s)).1 = true) : GroundIsoFwd s t := by
  rw [unifyWithCluster, unify_succeeds_iff] at h
  obtain ⟨hopt, σ, hσmem, hσchk⟩ := h
  rw [clName_newCluster] at hopt
  have hvarsSnd : (varsIn (newCluster s).addE (newCluster s).delE
      (clArgs (newCluster s))).Nodup := nodup_dedupFirst _
  obtain ⟨hσfst, hσsnd, hσent⟩ := injAssigns_sound (segObjs t) _ σ hvarsSnd hσmem
  unfold checkJoint at hσchk
  rw [Bool.and_eq_true, Bool.and_eq_true] at hσchk
  obtain ⟨⟨hADD, hDEL⟩, hARGS⟩ := hσchk
  rw [checkAtoms_pointwise] at hADD hDEL
  rw [checkArgs_iff] at hARGS
  have hrevtotal : ∀ v ∈ varsIn (newCluster s).addE (newCluster s).delE
      (clArgs (newCluster s)), ∃ oT, alistRevLookup σ v = some oT := by
    intro v hv
    unfold varsIn at hv
    rw [mem_dedupFirst] at hv
    rcases List.mem_append.mp hv with h1 | hargs
    · rcases List.mem_append.mp h1 with hadd | hdel
      · rcases List.mem_flatMap.mp hadd with ⟨l, hl, hvl⟩
        rcases hADD.1 l hl with ⟨g, _, hgl⟩
        exact mapThroughRev_forall (groundOfLifted_inv hgl).2 v hvl
      · rcases List.mem_flatMap.mp hdel with ⟨l, hl, hvl⟩
        rcases hDEL.1 l hl with ⟨g, _, hgl⟩
        exact mapThroughRev_forall (groundOfLifted_inv hgl).2 v hvl
    · exact mapThroughRev_forall hARGS v hargs
  set f : PObj → PObj :=
    fun o => ((alistLookup (segSub0 s) o).bind (alistRevLookup σ)).getD o with hf
  have hftotal : ∀ o ∈ segObjs s, ∃ vS oT,
      alistLookup (segSub0 s) o = some vS ∧ alistRevLookup σ vS = some oT ∧
      f o = oT := by
    intro o ho
    rcases segSub0_lookup_isSome ho with ⟨vS, hvS⟩
    have hvmem := segVar_mem_varsIn s o vS ho hvS
    rcases hrevtotal vS hvmem with ⟨oT, hoT⟩
    exact ⟨vS, oT, hvS, hoT, by simp [hf, hvS, hoT]⟩
  set φ := (segObjs s).map (fun o => (o, f o)) with hφ
  have hφsnd_eq : φ.map Prod.snd = (segObjs s).map f := by
    rw [hφ, List.map_map]
    rfl
  have hφfst_eq : φ.map Prod.fst = segObjs s := by
    rw [hφ, List.map_map]
    have : (Prod.fst ∘ fun o : PObj => (o, f o)) = id := rfl
    rw [this, List.map_id]
  have hsub0fstS : ((segSub0 s).map Prod.fst).Nodup := by
    rw [segSub0_fst]; exact segObjs_nodup s
  have hsub0sndS : ((segSub0 s).map Prod.snd).Nodup := by
    rw [segSub0_snd]; exact segParams_nodup s
  have hσfstnd : (σ.map Prod.fst).Nodup := by
    rw [hσfst]; exact segObjs_nodup t
  have hfinj : ∀ o1 ∈ segObjs s, ∀ o2 ∈ segObjs s, f o1 = f o2 → o1 = o2 := by
    intro o1 h1 o2 h2 he
    obtain ⟨v1, oT1, hv1, hr1, hf1⟩ := hftotal o1 h1
    obtain ⟨v2, oT2, hv2, hr2, hf2⟩ := hftotal o2 h2
    have hoT : oT1 = oT2 := by rw [← hf1, ← hf2, he]
    subst hoT
    have hv12 : v1 = v2 :=
      alist_fst_inj hσfstnd (alistRevLookup_mem hr1) (alistRevLookup_mem hr2)
    subst hv12
    exact alist_snd_inj hsub0sndS (alistLookup_mem hv1) (alistLookup_mem hv2)
  have hpt : ∀ a m b, alistLookup (segSub0 s) a = some m →
      alistRevLookup σ m = some b → alistLookup φ a = some b := by
    intro a m b h1 h2
    have ha : a ∈ segObjs s := by
      rw [← segSub0_fst s]
      exact List.mem_map.mpr ⟨(a, m), alistLookup_mem h1, rfl⟩
    rw [hφ, alistLookup_map_self, if_pos ha]
    have : f a = b := by simp [hf, h1, h2]
    rw [this]
  have hcorr : ∀ (g : GAtom) (l : LAtom) (g2 : GAtom),
      liftedOfGround (segSub0 s) g = some l → groundOfLifted σ l = some g2 →
      corrAtom φ g = some g2 := by
    intro g l g2 hl hgl
    have hcompargs : mapThrough φ g.args = some g2.args :=
      mapThrough_comp hpt (liftedOfGround_inv hl).2 (groundOfLifted_inv hgl).2
    have hpred : g.pred = g2.pred := by
      rw [← (liftedOfGround_inv hl).1, (groundOfLifted_inv hgl).1]
    unfold corrAtom
    rw [hcompargs]
    obtain ⟨g2p, g2a⟩ := g2
    simp only at hpred ⊢
    rw [hpred]
    rfl
  refine ⟨hopt.symm, φ, hφfst_eq, ?_, ?_, ?_, ?_, ?_, ?_, ?_, ?_⟩
  · rw [hφsnd_eq]
    exact List.Nodup.map_on hfinj (segObjs_nodup s)
  · intro p hp
    rw [hφ] at hp
    rcases List.mem_map.mp hp with ⟨o, ho, rfl⟩
    obtain ⟨vS, oT, hvS, hrev, hfo⟩ := hftotal o ho
    constructor
    · show f o ∈ segObjs t
      rw [hfo, ← hσfst]
      exact List.mem_map.mpr ⟨(oT, vS), alistRevLookup_mem hrev, rfl⟩
    · show (f o).ty = o.ty
      have h1 : vS.ty = o.ty := segSub0_ty s (o, vS) (alistLookup_mem hvS)
      have h2 : vS.ty = oT.ty := (hσent (oT, vS) (alistRevLookup_mem hrev)).2
      rw [hfo, ← h2, h1]
  · intro oT hoT
    rcases mem_fst_exists (by rw [hσfst]; exact hoT : oT ∈ σ.map Prod.fst) with
      ⟨v, hv⟩
    have hvvars := (hσent (oT, v) hv).1
    rcases mem_snd_exists (templVars_sub s v hvvars) with ⟨oS, hoS⟩
    have hoSmem : oS ∈ segObjs s := by
      rw [← segSub0_fst s]
      exact List.mem_map.mpr ⟨(oS, v), hoS, rfl⟩
    have hlook : alistLookup (segSub0 s) oS = some v :=
      alistLookup_of_mem hsub0fstS hoS
    have hrev : alistRevLookup σ v = some oT := alistRevLookup_of_mem hσsnd hv
    have hfoS : f oS = oT := by simp [hf, hlook, hrev]
    rw [hφsnd_eq]
    exact List.mem_map.mpr ⟨oS, hoSmem, hfoS⟩
  · intro g hg
    obtain ⟨l, hl⟩ := liftedOfGround_total (fun o ho => mem_segObjs_add hg ho)
    have hlmem : l ∈ (newCluster s).addE := by
      show l ∈ liftAtoms (segSub0 s) (addEffects s)
      rw [mem_liftAtoms]
      exact ⟨g, hg, hl⟩
    rcases hADD.1 l hlmem with ⟨g2, hg2, hgl⟩
    exact ⟨g2, hg2, hcorr g l g2 hl hgl⟩
  · intro g2 hg2
    rcases hADD.2 g2 hg2 with ⟨l, hlmem, hgl⟩
    rcases (mem_liftAtoms _ _ _).mp hlmem with ⟨g, hg, hl⟩
    exact ⟨g, hg, hcorr g l g2 hl hgl⟩
  · intro g hg
    obtain ⟨l, hl⟩ := liftedOfGround_total (fun o ho => mem_segObjs_del hg ho)
    have hlmem : l ∈ (newCluster s).delE := by
      show l ∈ liftAtoms (segSub0 s) (delEffects s)
      rw [mem_liftAtoms]
      exact ⟨g, hg, hl⟩
    rcases hDEL.1 l hlmem with ⟨g2, hg2, hgl⟩
    exact ⟨g2, hg2, hcorr g l g2 hl hgl⟩
  · intro g2 hg2
    rcases hDEL.2 g2 hg2 with ⟨l, hlmem, hgl⟩
    rcases (mem_liftAtoms _ _ _).mp hlmem with ⟨g, hg, hl⟩
    exact ⟨g, hg, hcorr g l g2 hl hgl⟩
  · rw [clArgs_newCluster] at hARGS
    exact mapThrough_comp hpt (liftArgs_total s) hARGS

theorem iso_to_unifyWC (s t : Segment) (h : GroundIsoFwd s t) :
    (unifyWithCluster s (newCluster t)).1 = true := by
  obtain ⟨hopt, φ, hφfst, hφsnd, hφent, hφsurj, hA1, hA2, hD1, hD2, hargs⟩ := h
  rw [unifyWithCluster, unify_succeeds_iff]
  refine ⟨by rw [clName_newCluster]; exact hopt, ?_⟩
  set g : PObj → PVar :=
    fun o => ((alistLookup φ o).bind (alistLookup (segSub0 t))).getD
      ⟨0, o.ty⟩ with hg
  have hsub0sndT : ((segSub0 t).map Prod.snd).Nodup := by
    rw [segSub0_snd]; exact segParams_nodup t
  have hgtotal : ∀ o ∈ segObjs s, ∃ oT vT, alistLookup φ o = some oT ∧
      alistLookup (segSub0 t) oT = some vT ∧ g o = vT := by
    intro o ho
    rcases alistLookup_isSome (show o ∈ φ.map Prod.fst by
      rw [hφfst]; exact ho) with ⟨oT, hoT⟩
    have hoTmem : oT ∈ segObjs t := (hφent (o, oT) (alistLookup_mem hoT)).1
    rcases segSub0_lookup_isSome hoTmem with ⟨vT, hvT⟩
    exact ⟨oT, vT, hoT, hvT, by simp [hg, hoT, hvT]⟩
  set τ := (segObjs s).map (fun o => (o, g o)) with hτ
  have hginj : ∀ o1 ∈ segObjs s, ∀ o2 ∈ segObjs s, g o1 = g o2 → o1 = o2 := by
    intro o1 h1 o2 h2 he
    obtain ⟨oT1, vT1, ho1, hv1, hg1⟩ := hgtotal o1 h1
    obtain ⟨oT2, vT2, ho2, hv2, hg2⟩ := hgtotal o2 h2
    have hvT : vT1 = vT2 := by rw [← hg1, ← hg2, he]
    subst hvT
    have hoT : oT1 = oT2 :=
      alist_snd_inj hsub0sndT (alistLookup_mem hv1) (alistLookup_mem hv2)
    subst hoT
    exact alist_snd_inj hφsnd (alistLookup_mem ho1) (alistLookup_mem ho2)
  have hτmem : τ ∈ injAssigns (segObjs s)
      (varsIn (newCluster t).addE (newCluster t).delE
        (clArgs (newCluster t))) := by
    rw [hτ]
    apply injAssigns_complete (segObjs s) _ g (segObjs_nodup s)
    · intro o ho
      obtain ⟨oT, vT, hoT, hvT, hgo⟩ := hgtotal o ho
      rw [hgo]
      exact segVar_mem_varsIn t oT vT
        ((hφent (o, oT) (alistLookup_mem hoT)).1) hvT
    · intro o ho
      obtain ⟨oT, vT, hoT, hvT, hgo⟩ := hgtotal o ho
      rw [hgo]
      have h1 : vT.ty = oT.ty := segSub0_ty t (oT, vT) (alistLookup_mem hvT)
      have h2 : oT.ty = o.ty := (hφent (o, oT) (alistLookup_mem hoT)).2
      rw [h1, h2]
    · exact hginj
  have hτsnd : (τ.map Prod.snd).Nodup := by
    have heq : τ.map Prod.snd = (segObjs s).map g := by
      rw [hτ, List.map_map]
      rfl
    rw [heq]
    exact List.Nodup.map_on hginj (segObjs_nodup s)
  have hpt : ∀ a m v, alistLookup φ a = some m →
      alistLookup (segSub0 t) m = some v → alistRevLookup τ v = some a := by
    intro a m v h1 h2
    have ha : a ∈ segObjs s := by
      rw [← hφfst]
      exact List.mem_map.mpr ⟨(a, m), alistLookup_mem h1, rfl⟩
    have hga : g a = v := by simp [hg, h1, h2]
    apply alistRevLookup_of_mem hτsnd
    rw [hτ]
    exact List.mem_map.mpr ⟨a, ha, by rw [hga]⟩
  have hcorrRev : ∀ (gS gT : GAtom) (l : LAtom),
      corrAtom φ gS = some gT → liftedOfGround (segSub0 t) gT = some l →
      groundOfLifted τ l = some gS := by
    intro gS gT l hc hl
    unfold corrAtom at hc
    rcases Option.map_eq_some'.mp hc with ⟨os, hos, hgT⟩
    have hgTargs : gT.args = os := by rw [← hgT]
    have hgTpred : gT.pred = gS.pred := by rw [← hgT]
    have hosargs : mapThrough φ gS.args = some gT.args := by
      rw [hgTargs]
      exact hos
    have hrev : mapThroughRev τ l.args = some gS.args :=
      mapThroughRev_comp hpt hosargs (liftedOfGround_inv hl).2
    unfold groundOfLifted
    rw [hrev]
    have hp : l.pred = gS.pred := by
      rw [(liftedOfGround_inv hl).1, hgTpred]
    obtain ⟨gSp, gSa⟩ := gS
    simp only at hp ⊢
    rw [hp]
    rfl
  refine ⟨τ, hτmem, ?_⟩
  unfold checkJoint
  rw [Bool.and_eq_true, Bool.and_eq_true]
  refine ⟨⟨?_, ?_⟩, ?_⟩
  · rw [checkAtoms_pointwise]
    constructor
    · intro l hl
      rcases (mem_liftAtoms _ _ _).mp hl with ⟨gT, hgT, hlift⟩
      rcases hA2 gT hgT with ⟨gS, hgS, hc⟩
      exact ⟨gS, hgS, hcorrRev gS gT l hc hlift⟩
    · intro gS hgS
      rcases hA1 gS hgS with ⟨gT, hgT, hc⟩
      obtain ⟨l, hl⟩ := liftedOfGround_total (fun o ho => mem_segObjs_add hgT ho)
      have hlmem : l ∈ (newCluster t).addE := by
        show l ∈ liftAtoms (segSub0 t) (addEffects t)
        rw [mem_liftAtoms]
        exact ⟨gT, hgT, hl⟩
      exact ⟨l, hlmem, hcorrRev gS gT l hc hl⟩
  · rw [checkAtoms_pointwise]
    constructor
    · intro l hl
      rcases (mem_liftAtoms _ _ _).mp hl with ⟨gT, hgT, hlift⟩
      rcases hD2 gT hgT with ⟨gS, hgS, hc⟩
      exact ⟨gS, hgS, hcorrRev gS gT l hc hlift⟩
    · intro gS hgS
      rcases hD1 gS hgS with ⟨gT, hgT, hc⟩
      obtain ⟨l, hl⟩ := liftedOfGround_total (fun o ho => mem_segObjs_del hgT ho)
      have hlmem : l ∈ (newCluster t).delE := by
        show l ∈ liftAtoms (segSub0 t) (delEffects t)
        rw [mem_liftAtoms]
        exact ⟨gT, hgT, hl⟩
      exact ⟨l, hlmem, hcorrRev gS gT l hc hl⟩
  · rw [checkArgs_iff, clArgs_newCluster]
    exact mapThroughRev_comp hpt hargs (liftArgs_total t)

theorem unifyWC_symm (s t : Segment) :
    (unifyWithCluster t (newCluster s)).1 = true ↔
    (unifyWithCluster s (newCluster t)).1 = true :=
  ⟨fun h => iso_to_unifyWC s t (unifyWC_to_iso t s h),
   fun h => iso_to_unifyWC t s (unifyWC_to_iso s t h)⟩

theorem unify_shape (gAdd : List GAtom) (lAdd : List LAtom) (gDel : List GAtom)
    (lDel : List LAtom) (gOptName lOptName : Option String) (gArgs : List PObj)
    (lArgs : List PVar) :
    unify_effects_and_options gAdd lAdd gDel lDel gOptName lOptName
      gArgs lArgs = (false, none) ∨
    ∃ σ, unify_effects_and_options gAdd lAdd gDel lDel gOptName lOptName
      gArgs lArgs = (true, some σ) := by
  unfold unify_effects_and_options
  by_cases hopt : gOptName = lOptName
  · rw [if_pos hopt]
    cases hfind : (injAssigns (objsIn gAdd gDel gArgs)
        (varsIn lAdd lDel lArgs)).find?
        (checkJoint gAdd lAdd gDel lDel gArgs lArgs) with
    | none => exact Or.inl rfl
    | some σ => exact Or.inr ⟨σ, rfl⟩
  · rw [if_neg hopt]
    exact Or.inl rfl

theorem learnClusters_two (s t : Segment) :
    (learnClusters [s, t]).length =
      if (unifyWithCluster t (newCluster s)).1 = true then 1 else 2 := by
  have hstep : learnClusters [s, t] = addSegment [newCluster s] t := rfl
  rw [hstep]
  unfold addSegment
  have htry : tryAdd [newCluster s] t =
      match unifyWithCluster t (newCluster s) with
      | (true, some σ) => some [updateCluster (newCluster s) t σ]
      | _ => none := rfl
  rcases unify_shape (addEffects t) (newCluster s).addE (delEffects t)
      (newCluster s).delE (segOptName t) (clName (newCluster s))
      (segOptArgs t) (clArgs (newCluster s)) with hu | ⟨σ, hu⟩
  · have hu2 : unifyWithCluster t (newCluster s) = (false, none) := hu
    rw [htry, hu2]
    simp [hu2]
  · have hu2 : unifyWithCluster t (newCluster s) = (true, some σ) := hu
    rw [htry, hu2]
    simp [hu2]

theorem learn_strips_zero_length (segs : List Segment) :
    (learn_strips_operators segs 0).length = (learnClusters segs).length := by
  unfold learn_strips_operators
  rw [List.length_map]
  congr 1
  apply List.filter_eq_self.mpr
  intro c _
  simp

/-- Amended C7: for every two-element segment list, both presentation orders
produce the same number of final operators under minimum-support 0, because
unification between a segment and the cluster founded by the other segment
is symmetric; the stronger original statement — that the final operator sets
agree as canonical strings up to variable renumbering — fails in general
(see the recorded counterexample), because with several unifying bindings
available the first-fit choice, and hence the intersected precondition set,
depends on presentation order. -/
theorem two_segment_count_order_invariant (s t : Segment) :
    (learn_strips_operators [s, t] 0).length =
      (learn_strips_operators [t, s] 0).length := by
  rw [learn_strips_zero_length, learn_strips_zero_length,
    learnClusters_two s t, learnClusters_two t s]
  exact if_congr (unifyWC_symm s t) rfl rfl

end Predicators
